import Mathlib

/-!
Verification of the seastar IPv4 engine (src/net/ip.cc), the flow-steering
hash (src/net/toeplitz.hh) and the DPDK transmit adapter (src/net/dpdk.cc),
against the natural-language specification.

The embedding models packets as lists of byte values (`List Nat`, each < 256
where it matters), machine integers as `Nat` with explicit modular reduction
where overflow matters, and the per-core reassembly state as an explicit
record that every operation threads.  Declarations from `ip.hh` and
`packet.hh`, which are not part of the source tree (only `ip.cc` is), are
modelled from the specification and say so in their doc comments.
-/

namespace Seastar

/-! ## Bytes and big-endian field access -/

/-- Read byte `i` of a byte list (0 when out of range, reduced mod 256). -/
def byteAt (b : List Nat) (i : Nat) : Nat := (b.getD i 0) % 256

/-- Big-endian 16-bit field starting at byte `i`. -/
def be16 (b : List Nat) (i : Nat) : Nat := byteAt b i * 256 + byteAt b (i + 1)

/-- Big-endian 32-bit field starting at byte `i`. -/
def be32 (b : List Nat) (i : Nat) : Nat := be16 b i * 65536 + be16 b (i + 2)

/-- Serialize a 16-bit value big-endian. -/
def be16Bytes (v : Nat) : List Nat := [v / 256 % 256, v % 256]

/-- Serialize a 32-bit value big-endian. -/
def be32Bytes (v : Nat) : List Nat := be16Bytes (v / 65536 % 65536) ++ be16Bytes v

/-- Overwrite the big-endian 16-bit field at byte `i` with `v`. -/
def set16 (b : List Nat) (i v : Nat) : List Nat :=
  (b.set i (v / 256 % 256)).set (i + 1) (v % 256)

/-! ## IPv4 header (`ip_hdr`)

Modelled from the spec: `ip_hdr` is declared in `ip.hh`, which is not under
`src/`; the wire layout is given verbatim in spec section 6:
`ver:4 | ihl:4 | dscp:6 | ecn:2 | total_len:16 | id:16 | flags:3 |
frag_offset:13 | ttl:8 | protocol:8 | checksum:16 | src_ip:32 | dst_ip:32`,
with the MF bit at `mf_shift = 13` of the combined 16-bit `flags|offset`
word and the fragment offset in 8-octet units. -/

structure IpHdr where
  ihl : Nat := 5
  ver : Nat := 4
  dscp : Nat := 0
  ecn : Nat := 0
  len : Nat := 0
  id : Nat := 0
  frag : Nat := 0
  ttl : Nat := 64
  ip_proto : Nat := 0
  csum : Nat := 0
  src_ip : Nat := 0
  dst_ip : Nat := 0
deriving DecidableEq, Repr

/-- `ip_hdr::mf()`: the more-fragments bit of the combined 16-bit word. -/
def IpHdr.mf (h : IpHdr) : Bool := h.frag.testBit 13

/-- `ip_hdr::offset()`: the fragment offset in bytes (the 13-bit field is in
8-octet units). -/
def IpHdr.offset (h : IpHdr) : Nat := (h.frag % 8192) * 8

/-- Parse the fixed 20-byte IPv4 header from packet bytes (fields converted
from network order, as `ntoh` does). -/
def parseIpHdr (b : List Nat) : IpHdr :=
  { ihl := byteAt b 0 % 16
    ver := byteAt b 0 / 16
    dscp := byteAt b 1 / 4
    ecn := byteAt b 1 % 4
    len := be16 b 2
    id := be16 b 4
    frag := be16 b 6
    ttl := byteAt b 8
    ip_proto := byteAt b 9
    csum := be16 b 10
    src_ip := be32 b 12
    dst_ip := be32 b 16 }

/-! ## Checksum

Modelled from the spec: `checksummer` lives in `ip.hh`, which is not under
`src/`.  Spec section 4.D: "compute the IP header checksum (one's-complement
sum ...); on mismatch, drop" -- the getter folds the 16-bit one's-complement
accumulator and returns its complement, so a valid header sums to 0. -/

/-- Split a byte string into big-endian 16-bit words (odd trailing byte is
the high half of the last word). -/
def words16 : List Nat → List Nat
  | [] => []
  | [b] => [b % 256 * 256]
  | b0 :: b1 :: rest => (b0 % 256 * 256 + b1 % 256) :: words16 rest

/-- One step of 16-bit one's-complement accumulation with end-around carry. -/
def onesAdd (a w : Nat) : Nat := (a + w) % 65536 + (a + w) / 65536

/-- `checksummer::get()` over a byte string: folded one's-complement sum,
complemented; 0 means the data checksums correctly. -/
def csumGet (bytes : List Nat) : Nat :=
  let t := (words16 bytes).foldl onesAdd 0
  let t := t % 65536 + t / 65536
  let t := t % 65536 + t / 65536
  65535 - t % 65536

/-! ## Fragment-range merging (`ipv4::frag::data`)

Modelled from the spec: the ordered map held in `ipv4::frag::data` and its
`merge` operation are declared in `ip.hh`, which is not under `src/`.  Spec
section 4.D: "insert `(offset → payload)` into the ordered map; on overlap
with an existing range, the implementation must coalesce so that when all
gaps are filled exactly one entry remains at offset 0." -/

/-- Insert a `(offset, payload)` range into the offset-ordered list. -/
def insertRange (off : Nat) (p : List Nat) :
    List (Nat × List Nat) → List (Nat × List Nat)
  | [] => [(off, p)]
  | (o, q) :: rest =>
    if off ≤ o then (off, p) :: (o, q) :: rest
    else (o, q) :: insertRange off p rest

/-- Coalesce the range `(o1, p1)` into the ranges after it, concatenating
adjacent ranges that are exactly contiguous. -/
def coalesceInto (o1 : Nat) (p1 : List Nat) :
    List (Nat × List Nat) → List (Nat × List Nat)
  | [] => [(o1, p1)]
  | (o2, p2) :: rest =>
    if o1 + p1.length = o2 then coalesceInto o1 (p1 ++ p2) rest
    else (o1, p1) :: coalesceInto o2 p2 rest

/-- Coalesce adjacent ranges that are exactly contiguous. -/
def coalesce : List (Nat × List Nat) → List (Nat × List Nat)
  | [] => []
  | (o, p) :: rest => coalesceInto o p rest

/-- The ordered-map merge: insert, then coalesce contiguous neighbours. -/
def mergeRange (m : List (Nat × List Nat)) (off : Nat) (p : List Nat) :
    List (Nat × List Nat) :=
  coalesce (insertRange off p m)

/-! ## Reassembly entry (`ipv4::frag`) -/

/-- `ipv4::frag`.  `mem_size` accounting follows the spec ("sum of payload
memory plus header"); `packet::memory()` (from `packet.hh`, not under `src/`)
is modelled as the byte count held. -/
structure Frag where
  header : List Nat := []
  data : List (Nat × List Nat) := []
  last_frag_received : Bool := false
  rx_time : Nat := 0
  mem_size : Nat := 0
deriving DecidableEq, Repr

instance : Inhabited Frag := ⟨{}⟩

/-- `ipv4::frag::merge` (ip.cc:360): store the IP header when `offset == 0`,
trim the per-fragment IP header off the payload, merge the payload into the
ordered map, and recompute `mem_size`. -/
def Frag.merge (f : Frag) (h : IpHdr) (offset : Nat) (p : List Nat) : Frag :=
  let ip_hdr_len := h.ihl * 4
  let header := if offset = 0 then p.take ip_hdr_len else f.header
  let data := mergeRange f.data offset (p.drop ip_hdr_len)
  { f with
    header := header
    data := data
    mem_size := header.length + (data.map (fun x => x.2.length)).sum }

/-- `ipv4::frag::is_complete` (ip.cc:379): all fragments received iff the
last fragment arrived and the map collapsed to a single range at offset 0.
(`data.map.begin()` on an empty map is undefined in C++; the model returns
`false` there.) -/
def Frag.is_complete (f : Frag) : Bool :=
  f.last_frag_received && f.data.length == 1 &&
    (match f.data with
     | (o, _) :: _ => o == 0
     | [] => false)

/-- Ethernet header bytes: 6-byte dst, 6-byte src, ethertype 0x0800. -/
def ethHdrBytes (src_mac dst_mac : List Nat) : List Nat :=
  dst_mac ++ src_mac ++ [0x08, 0x00]

/-- `ipv4::frag::get_assembled_packet` (ip.cc:387): prepend an Ethernet
header to the captured IP header, append the single merged data range,
rewrite the IP total-length field and zero the fragment field (byte offsets
16 and 20 relative to the frame, i.e. offsets 2 and 6 within the IP
header). -/
def Frag.get_assembled_packet (f : Frag) (src_mac dst_mac : List Nat) :
    List Nat :=
  let ip_data := match f.data with
    | (_, d) :: _ => d
    | [] => []
  let pkt := ethHdrBytes src_mac dst_mac ++ f.header ++ ip_data
  let ip_len := pkt.length - 14
  set16 (set16 pkt 16 ip_len) 20 0

/-- One fragment arriving at the reassembly entry, as the reassembly branch
of `handle_received_packet` treats it (ip.cc:134-142): set
`last_frag_received` when `MF = 0`, then merge. -/
def Frag.receive (f : Frag) (h : IpHdr) (p : List Nat) : Frag :=
  let f := if h.mf = false then { f with last_frag_received := true } else f
  f.merge h h.offset p

/-- The reassembly entry produced by a sequence of arriving fragments
(header-plus-payload byte strings with their parsed headers), starting from
a default-constructed entry. -/
def receiveAll (arrival : List (IpHdr × List Nat)) : Frag :=
  arrival.foldl (fun f hp => f.receive hp.1 hp.2) {}

/-- The `(offset, payload)` range a received fragment contributes to the
ordered map: its fragment offset and its bytes past its own IP header. -/
def fragView (hp : IpHdr × List Nat) : Nat × List Nat :=
  (hp.1.offset, hp.2.drop (hp.1.ihl * 4))

/-- The fragments of a split of payload `P` into chunks of lengths `ls`,
the first chunk at byte offset `off`. -/
def splitChunks (P : List Nat) : Nat → List Nat → List (Nat × List Nat)
  | _, [] => []
  | off, n :: ls => (off, (P.drop off).take n) :: splitChunks P (off + n) ls

/-- Total payload bytes held by a list of ranges. -/
def sumLens (l : List (Nat × List Nat)) : Nat :=
  (l.map (fun r => r.2.length)).sum

/-- `n` lies inside one of the ranges. -/
def covers (l : List (Nat × List Nat)) (n : Nat) : Prop :=
  ∃ r ∈ l, r.1 ≤ n ∧ n < r.1 + r.2.length

/-- The ranges are sorted by offset with disjoint, gap-separated intervals. -/
def rangesSorted (l : List (Nat × List Nat)) : Prop :=
  l.Chain' (fun a b => a.1 + a.2.length ≤ b.1)

/-- Every range is a nonempty literal slice of `P` at its offset. -/
def slicesOf (P : List Nat) (l : List (Nat × List Nat)) : Prop :=
  ∀ r ∈ l, r.2 = (P.drop r.1).take r.2.length ∧ r.2 ≠ []

/-- The intervals of two ranges do not intersect. -/
def rangeDisj (a b : Nat × List Nat) : Prop :=
  a.1 + a.2.length ≤ b.1 ∨ b.1 + b.2.length ≤ a.1

/-! ## Reassembly table and the `ipv4` per-core state -/

/-- `ipv4_frag_id` (declared in `ip.hh`): the 4-tuple keying a reassembly
entry. -/
structure FragId where
  src_ip : Nat
  dst_ip : Nat
  id : Nat
  protocol : Nat
deriving DecidableEq, Repr

/-- Reassembly parameters (ip.cc/ip.hh; spec section 6).  Time is counted in
seconds. -/
def frag_timeout_secs : Nat := 30

def frag_low_thresh : Nat := 3 * 1024 * 1024

def frag_high_thresh : Nat := 4 * 1024 * 1024

def ip_packet_len_max : Nat := 65535

/-- The per-core reassembly state of `ipv4`: the `unordered_map` `_frags`
(modelled as an association list), the age list `_frags_age`, the running
total `_frag_mem`, and the reassembly timer. -/
structure IpState where
  frags : List (FragId × Frag) := []
  frags_age : List FragId := []
  frag_mem : Nat := 0
  timer_armed : Bool := false
  timer_expiry : Nat := 0
deriving DecidableEq, Repr

/-- Lookup in `_frags` (`std::unordered_map::find`). -/
def findFrag (l : List (FragId × Frag)) (k : FragId) : Option Frag :=
  (l.find? (fun x => x.1 = k)).map (fun x => x.2)

/-- `_frags[k]`: the entry when present, a default-constructed one otherwise
(`operator[]` semantics). -/
def getFrag (l : List (FragId × Frag)) (k : FragId) : Frag :=
  (findFrag l k).getD {}

/-- Erase a key from `_frags`. -/
def eraseFrag (l : List (FragId × Frag)) (k : FragId) : List (FragId × Frag) :=
  l.filter (fun x => x.1 ≠ k)

/-- Store (insert or replace) an entry in `_frags`. -/
def setFrag (l : List (FragId × Frag)) (k : FragId) (f : Frag) :
    List (FragId × Frag) :=
  if (l.find? (fun x => x.1 = k)).isSome then
    l.map (fun x => if x.1 = k then (k, f) else x)
  else l ++ [(k, f)]

/-- The total `mem_size` held by a reassembly table — the right-hand side of
the spec invariant `frag_mem == Σ entry.mem_size`. -/
def sumMem (l : List (FragId × Frag)) : Nat :=
  (l.map (fun x => x.2.mem_size)).sum

/-- `ipv4::frag_drop` (ip.cc:355): erase from `_frags` and decrement
`_frag_mem`. -/
def IpState.frag_drop (s : IpState) (k : FragId) (dropped_size : Nat) :
    IpState :=
  { s with frags := eraseFrag s.frags k, frag_mem := s.frag_mem - dropped_size }

/-- The eviction loop of `ipv4::frag_limit_mem` (ip.cc:312): while the byte
target is unmet and the age list is non-empty, pop the oldest key, drop its
entry, and shrink the target by the bytes released.  Returns the updated
table, `_frag_mem`, and age list. -/
def limitLoop (frags : List (FragId × Frag)) (mem drop : Nat) :
    List FragId → List (FragId × Frag) × Nat × List FragId
  | [] => (frags, mem, [])
  | k :: rest =>
    if drop = 0 then (frags, mem, k :: rest)
    else
      let dropped_size := (getFrag frags k).mem_size
      limitLoop (eraseFrag frags k) (mem - dropped_size)
        (drop - min drop dropped_size) rest

/-- `ipv4::frag_limit_mem` (ip.cc:307). -/
def IpState.frag_limit_mem (s : IpState) : IpState :=
  if s.frag_mem ≤ frag_high_thresh then s
  else
    let r := limitLoop s.frags s.frag_mem (s.frag_mem - frag_low_thresh)
               s.frags_age
    { s with frags := r.1, frag_mem := r.2.1, frags_age := r.2.2 }

/-- The sweep loop of `ipv4::frag_timeout` (ip.cc:334): walk the age list
oldest-first, dropping every expired entry, and stop at the first survivor.
Returns the updated table, `_frag_mem` and age list. -/
def timeoutSweep (now : Nat) :
    List (FragId × Frag) → Nat → List FragId →
    List (FragId × Frag) × Nat × List FragId
  | frags, mem, [] => (frags, mem, [])
  | frags, mem, k :: rest =>
    let f := getFrag frags k
    if now > f.rx_time + frag_timeout_secs then
      timeoutSweep now (eraseFrag frags k) (mem - f.mem_size) rest
    else (frags, mem, k :: rest)

/-- `ipv4::frag_timeout` (ip.cc:329).  The timer has just fired, so it is
disarmed on entry; it is re-armed for `now + 30 s` iff the table is
non-empty after the sweep, and `_frag_mem` is reset to 0 otherwise. -/
def IpState.frag_timeout (s : IpState) (now : Nat) : IpState :=
  let s := { s with timer_armed := false }
  if s.frags = [] then s
  else
    let r := timeoutSweep now s.frags s.frag_mem s.frags_age
    if r.1.length ≠ 0 then
      { s with frags := r.1, frag_mem := r.2.1, frags_age := r.2.2,
               timer_armed := true, timer_expiry := now + frag_timeout_secs }
    else
      { s with frags := r.1, frag_mem := 0, frags_age := r.2.2 }

/-! ## Flow steering (`ipv4::handle_on_cpu`, src/net/toeplitz.hh) -/

/-- The Mellanox Linux default RSS key (src/net/toeplitz.hh:36). -/
def rsskey : List Nat :=
  [0xd1, 0x81, 0xc6, 0x2c, 0xf7, 0xf4, 0xdb, 0x5b,
   0x19, 0x83, 0xa2, 0xfc, 0x94, 0x3e, 0x1a, 0xdb,
   0xd9, 0x38, 0x9e, 0x6b, 0xd1, 0x03, 0x9c, 0x2c,
   0xa7, 0x44, 0x99, 0xad, 0x59, 0x3d, 0x56, 0xd9,
   0xf3, 0x25, 0x3c, 0x06, 0x2a, 0xdc, 0x1f, 0xfc]

/-- One bit step of the Toeplitz loop (src/net/toeplitz.hh:55): XOR `v` into
the hash when the data bit is set, shift the 32-bit `v` left, and pull the
matching key bit into its LSB. -/
def toeplitzBit (dataBit keyBit : Bool) : Nat × Nat → Nat × Nat
  | (hash, v) =>
    let hash := if dataBit then hash ^^^ v else hash
    let v := v * 2 % 4294967296
    let v := if keyBit then v + 1 else v
    (hash, v)

/-- `toeplitz_hash` (src/net/toeplitz.hh:44): 32-bit Toeplitz hash of `data`
under `key`, bits taken MSB-first. -/
def toeplitz_hash (key data : List Nat) : Nat :=
  let v0 := key.getD 0 0 * 16777216 + key.getD 1 0 * 65536 +
            key.getD 2 0 * 256 + key.getD 3 0
  let step := fun (st : Nat × Nat) (i : Nat) =>
    (List.range 8).foldl
      (fun st b =>
        toeplitzBit ((data.getD i 0).testBit (7 - b))
          (decide (i + 4 < key.length) && (key.getD (i + 4) 0).testBit (7 - b))
          st)
      st
  ((List.range data.length).foldl step (0, v0)).1

/-- Modelled from the spec: the registered L4 handler's
`forward(packet, l4_offset, src_ip, dst_ip)` (the TCP/UDP handlers live
outside `src/`).  Spec section 4.C: the handler computes the core from the
4-tuple (src_ip, dst_ip and the L4 ports it hashes over) with a Toeplitz
hash under the Mellanox key, reduced to a core number. -/
def l4_forward (smp_count : Nat) (p : List Nat) (l4off : Nat)
    (src_ip dst_ip : Nat) : Nat :=
  let data := be32Bytes src_ip ++ be32Bytes dst_ip ++
              be16Bytes (be16 p l4off) ++ be16Bytes (be16 p (l4off + 2))
  toeplitz_hash rsskey data % smp_count

/-- Modelled from the spec: `ipv4_frag_id::hash` (declared in `ip.hh`, not
under `src/`) — a deterministic hash of the fragment key
`(src_ip, dst_ip, id, protocol)`. -/
def fragIdHash (k : FragId) : Nat :=
  (((k.src_ip * 16777619 + k.dst_ip) * 16777619 + k.id) * 16777619 +
    k.protocol) % 4294967296

/-- The environment `ipv4::handle_on_cpu` and `handle_received_packet` read:
hardware features, the host configuration, the current core, the core count
and the set of registered L4 protocol numbers. -/
structure RxEnv where
  rx_csum_offload : Bool := false
  host_address : Nat := 0
  netmask : Nat := 0
  cpu_id : Nat := 0
  smp_count : Nat := 1
  registered : Nat → Bool := fun _ => false

/-- `ipv4::handle_on_cpu` (ip.cc:41): atomic datagrams are steered by the
L4 handler's Toeplitz hash, fragments by the fragment-key hash reduced
modulo the core count; unknown protocols stay on the current core. -/
def handle_on_cpu (env : RxEnv) (p : List Nat) (off : Nat) : Nat :=
  let h := parseIpHdr (p.drop off)
  if !env.registered h.ip_proto then env.cpu_id
  else if h.mf = false && h.offset = 0 then
    l4_forward env.smp_count p (off + 20) h.src_ip h.dst_ip
  else
    fragIdHash ⟨h.src_ip, h.dst_ip, h.id, h.ip_proto⟩ % env.smp_count

/-! ## The receive path (`ipv4::handle_received_packet`) -/

/-- What a call to `handle_received_packet` does with the packet, besides
updating the state: silently drop it (return a ready future), deliver the
payload to a registered L4 handler, forward an assembled datagram to another
core, or dereference a null handler (the C++ calls `l4->received` without
checking `l4` in the reassembly-complete branch). -/
inductive RxAction where
  | drop
  | deliver (proto : Nat) (payload : List Nat) (src_ip dst_ip : Nat)
  | forward (cpu : Nat) (pkt : List Nat)
  | null_deref
deriving DecidableEq, Repr

/-- The reassembly branch of `ipv4::handle_received_packet` (ip.cc:128-175):
memory-pressure eviction, entry lookup/creation, merge, and either
completion (deliver/forward and drop the entry) or arming the timer. -/
def rxReassemble (env : RxEnv) (now : Nat) (s : IpState) (h : IpHdr)
    (offset : Nat) (p : List Nat) (eth_src eth_dst : List Nat) :
    IpState × RxAction :=
  let s := s.frag_limit_mem
  let k : FragId := ⟨h.src_ip, h.dst_ip, h.id, h.ip_proto⟩
  let f0 := getFrag s.frags k
  let f0 := if h.mf = false then { f0 with last_frag_received := true } else f0
  let isNew := f0.mem_size = 0
  let s := if isNew then { s with frags_age := s.frags_age ++ [k] } else s
  let f0 := if isNew then { f0 with rx_time := now } else f0
  let f1 := f0.merge h offset p
  let s := { s with frags := setFrag s.frags k f1,
                    frag_mem := s.frag_mem + f1.mem_size - f0.mem_size }
  if f1.is_complete then
    let dropped_size := f1.mem_size
    let ip_data := match f1.data with
      | (_, d) :: _ => d
      | [] => []
    let cpu := if env.registered h.ip_proto then
                 l4_forward env.smp_count ip_data 0 h.src_ip h.dst_ip
               else env.cpu_id
    let act := if cpu = env.cpu_id then
                 if env.registered h.ip_proto then
                   RxAction.deliver h.ip_proto ip_data h.src_ip h.dst_ip
                 else RxAction.null_deref
               else RxAction.forward cpu (f1.get_assembled_packet eth_src eth_dst)
    let s := s.frag_drop k dropped_size
    let s := { s with frags_age := s.frags_age.filter (fun x => x ≠ k) }
    (s, act)
  else
    let s := if !s.timer_armed then
               { s with timer_armed := true, timer_expiry := now + frag_timeout_secs }
             else s
    (s, RxAction.drop)

/-- `ipv4::handle_received_packet` (ip.cc:78): header extraction, checksum
(over `sizeof(ip_hdr)` = 20 bytes, skipped under RX offload or for
reassembled datagrams), length fixup, oversize check, local-address check,
then either the reassembly branch or direct L4 delivery.  The optional
packet filter and the ARP side channel are not modelled (no claim touches
them); `eth_src`/`eth_dst` are the addresses used when an assembled
datagram is forwarded across cores. -/
def handle_received_packet (env : RxEnv) (now : Nat) (s : IpState)
    (p : List Nat) (reassembled : Bool) (eth_src eth_dst : List Nat) :
    IpState × RxAction :=
  if p.length < 20 then (s, RxAction.drop)
  else if (!env.rx_csum_offload && !reassembled) && csumGet (p.take 20) ≠ 0 then
    (s, RxAction.drop)
  else
    let h := parseIpHdr p
    let ip_len := h.len
    let ip_hdr_len := h.ihl * 4
    let offset := h.offset
    if p.length < ip_len then (s, RxAction.drop)
    else
      let p := p.take ip_len
      if offset + p.length > ip_packet_len_max then (s, RxAction.drop)
      else if h.dst_ip ≠ env.host_address then (s, RxAction.drop)
      else if h.mf || offset ≠ 0 then
        rxReassemble env now s h offset p eth_src eth_dst
      else if env.registered h.ip_proto then
        (s, RxAction.deliver h.ip_proto (p.drop ip_hdr_len) h.src_ip h.dst_ip)
      else (s, RxAction.drop)

/-- One operation on the per-core reassembly state: a received packet
(which may insert a fragment and may complete a reassembly, and itself
calls `frag_limit_mem`), a timer fire, or a bare memory-pressure check. -/
inductive IpOp where
  | rx (env : RxEnv) (now : Nat) (p : List Nat) (reassembled : Bool)
       (eth_src eth_dst : List Nat)
  | timeout (now : Nat)
  | limit_mem

/-- Apply one operation to the state. -/
def applyOp (s : IpState) : IpOp → IpState
  | .rx env now p reassembled eth_src eth_dst =>
    (handle_received_packet env now s p reassembled eth_src eth_dst).1
  | .timeout now => s.frag_timeout now
  | .limit_mem => s.frag_limit_mem

/-! ## The transmit path (`ipv4::send`) -/

/-- Hardware feature flags (spec section 3; declared in `net.hh`). -/
structure HwFeatures where
  tx_csum_ip_offload : Bool := false
  tx_csum_l4_offload : Bool := false
  rx_csum_offload : Bool := false
  tx_tso : Bool := false
  tx_ufo : Bool := false
  mtu : Nat := 1500
deriving DecidableEq, Repr

/-- `ip_protocol_num` values used by `ipv4`. -/
def proto_icmp : Nat := 1

def proto_tcp : Nat := 6

def proto_udp : Nat := 17

/-- `ipv4_hdr_len_min`: the 20-byte minimal IPv4 header. -/
def ipv4_hdr_len_min : Nat := 20

/-- `ipv4::needs_frag` (ip.cc:64): fragment iff the body plus minimal header
exceeds the MTU and the protocol has no large-segment offload. -/
def needs_frag (len : Nat) (prot_num : Nat) (hw : HwFeatures) : Bool :=
  if len + ipv4_hdr_len_min ≤ hw.mtu then false
  else if (prot_num = proto_tcp && hw.tx_tso) ||
          (prot_num = proto_udp && hw.tx_ufo) then false
  else true

/-- One IP frame produced by `ipv4::send`: the MF bit and 13-bit offset
field written into `iph->frag`, the total-length field, and the carved
payload size. -/
structure IpFrame where
  mf : Bool
  offset_units : Nat
  len : Nat
  payload_len : Nat
deriving DecidableEq, Repr

/-- The fragmentation loop of `ipv4::send` (ip.cc:246): carve
`min(mtu - 20, remaining)` bytes, set MF from the bytes left after the
carve, write the offset in 8-octet units, and repeat until nothing remains.
The fuel argument bounds the iteration count (each round carves at least one
byte whenever `mtu > 20`, so `remaining` rounds suffice). -/
def sendLoop (mtu : Nat) : Nat → Nat → Nat → List IpFrame
  | 0, _, _ => []
  | _ + 1, 0, _ => []
  | fuel + 1, remaining, offset =>
    let can_send := min (mtu - ipv4_hdr_len_min) remaining
    let remaining' := remaining - can_send
    { mf := decide (0 < remaining')
      offset_units := offset / 8
      len := can_send + 20
      payload_len := can_send } ::
      sendLoop mtu fuel remaining' (offset + can_send)

/-- `ipv4::send` (ip.cc:186), reduced to the frames it emits: one unfragmented
frame with `frag = 0`, or the fragmentation loop.  `remaining` is a
`uint16_t`, so the body length is truncated mod 2^16 in the loop. -/
def ipv4_send (len : Nat) (prot_num : Nat) (hw : HwFeatures) : List IpFrame :=
  if needs_frag len prot_num hw then
    sendLoop hw.mtu (len % 65536) (len % 65536) 0
  else
    [{ mf := false, offset_units := 0, len := len + 20, payload_len := len }]

/-! ## The DPDK transmit adapter (`net_device::send`, src/net/dpdk.cc)

Driver-buffer allocation (`rte_pktmbuf_alloc`) can fail at runtime; the
model draws the outcome of the `i`-th allocation from an oracle
`alloc_ok : Nat → Bool` and threads the next index through each call. -/

/-- `mbuf_data_size` (dpdk.cc:45): each driver buffer holds ≤ 2048 bytes. -/
def mbuf_data_size : Nat := 2048

/-- `max_frags` (dpdk.cc:48): the scatter limit above which a packet is
linearized. -/
def max_frags : Nat := 32

/-- Outcome of `net_device::copy_one_frag`: the process was aborted
(`rte_exit` on a zero-size fragment), the copy failed on allocation (the
partial cluster freed), or it succeeded with `nsegs` segments. -/
inductive FragCopyRes where
  | aborted
  | failed
  | ok (nsegs : Nat)
deriving DecidableEq, Repr

/-- Result of one `copy_one_frag` call: next allocation index, buffers
allocated by this call, buffers freed by this call, and the outcome. -/
structure CopyOut where
  next : Nat
  alloc : Nat
  freed : Nat
  res : FragCopyRes
deriving DecidableEq, Repr

/-- `net_device::copy_one_data_buf` (dpdk.cc:439): allocate one driver
buffer and copy at most `mbuf_data_size` bytes into it; 0 bytes copied
signals allocation failure. -/
def copy_one_data_buf (alloc_ok : Nat → Bool) (i : Nat) (l : Nat) :
    Nat × Nat :=
  if alloc_ok i then (i + 1, min l mbuf_data_size) else (i + 1, 0)

/-- The chaining loop of `net_device::copy_one_frag` (dpdk.cc:482): keep
copying the remaining bytes into fresh buffers; on failure free the whole
partial cluster (`rte_pktmbuf_free(head)` frees all `nsegs` chained
buffers).  The fuel argument bounds the iteration count (each round copies
at least one byte, so `left` rounds always suffice). -/
def copyFragLoop (alloc_ok : Nat → Bool) :
    (fuel i left nsegs : Nat) → CopyOut
  | 0, i, _, nsegs => { next := i, alloc := nsegs, freed := 0, res := .ok nsegs }
  | fuel + 1, i, left, nsegs =>
    if left = 0 then { next := i, alloc := nsegs, freed := 0, res := .ok nsegs }
    else
      match copy_one_data_buf alloc_ok i left with
      | (i', len) =>
        if len = 0 then
          { next := i', alloc := nsegs, freed := nsegs, res := .failed }
        else copyFragLoop alloc_ok fuel i' (left - len) (nsegs + 1)

/-- `net_device::copy_one_frag` (dpdk.cc:458): `rte_exit` on a zero-size
fragment, otherwise allocate the cluster head and chain the rest. -/
def copy_one_frag (alloc_ok : Nat → Bool) (i : Nat) (size : Nat) : CopyOut :=
  if size = 0 then { next := i, alloc := 0, freed := 0, res := .aborted }
  else
    match copy_one_data_buf alloc_ok i size with
    | (i', len) =>
      if len = 0 then { next := i', alloc := 0, freed := 0, res := .failed }
      else copyFragLoop alloc_ok size i' (size - len) 1

/-- Outcome of `net_device::send`: immediate success on an empty packet,
silent drop on allocation failure (the future is still ready), a transmitted
cluster, or a process abort. -/
inductive TxRes where
  | success_no_tx
  | silent_drop
  | transmitted (nsegs : Nat)
  | aborted
deriving DecidableEq, Repr

/-- Result of `net_device::send`: total buffers allocated, total freed, and
the outcome. -/
structure SendOut where
  alloc : Nat
  freed : Nat
  res : TxRes
deriving DecidableEq, Repr

/-- The per-fragment loop of `net_device::send` (dpdk.cc:525-545): copy each
fragment into the cluster; on failure `rte_pktmbuf_free(head)` frees the
buffers accumulated so far (the failing call already freed its own partial
chain). -/
def sendFragsLoop (alloc_ok : Nat → Bool) (i : Nat) :
    List Nat → Nat → Nat → SendOut
  | [], acc, nsegs => { alloc := acc, freed := 0, res := .transmitted nsegs }
  | sz :: rest, acc, nsegs =>
    let c := copy_one_frag alloc_ok i sz
    match c.res with
    | .aborted => { alloc := acc + c.alloc, freed := c.freed, res := .aborted }
    | .failed =>
      { alloc := acc + c.alloc, freed := c.freed + acc, res := .silent_drop }
    | .ok n => sendFragsLoop alloc_ok c.next rest (acc + c.alloc) (nsegs + n)

/-- `net_device::send` (dpdk.cc:503), on the fragment-size view of a packet
(a packet buffer's total length is the sum of its fragment sizes): succeed
immediately when empty, linearize into a single fragment when the scatter
limit is exceeded, then copy fragment by fragment. -/
def net_device_send (alloc_ok : Nat → Bool) (frag_sizes : List Nat) :
    SendOut :=
  if frag_sizes.sum = 0 then { alloc := 0, freed := 0, res := .success_no_tx }
  else
    let frags := if frag_sizes.length > max_frags then [frag_sizes.sum]
                 else frag_sizes
    sendFragsLoop alloc_ok 0 frags 0 0

/-! ## Concrete inputs used by the witnesses and counterexamples -/

/-- A 28-byte IPv4 datagram with `ihl = 6` (24-byte header with options
`01 02 03 04`), protocol TCP, `10.0.0.5 → 10.0.0.1`, and a 4-byte payload.
Its checksum field `0x65D7` makes the one's-complement sum over the first
20 bytes valid while the sum over all `ihl * 4 = 24` header bytes is not. -/
def c6pkt : List Nat :=
  [0x46, 0, 0, 28, 0, 0, 0, 0, 64, 6, 0x65, 0xD7,
   10, 0, 0, 5, 10, 0, 0, 1] ++ [1, 2, 3, 4] ++ [0xAA, 0xBB, 0xCC, 0xDD]

/-- The receive environment for the checksum counterexample: host
`10.0.0.1`, no RX checksum offload, TCP registered. -/
def c6env : RxEnv :=
  { host_address := 0x0A000001, registered := fun pr => pr == 6 }

/-- First fragment (`MF = 1`, offset 0) of a datagram with the unregistered
protocol number 99, from/to addresses 0, id 1, 8-byte payload. -/
def c2pkt1 : List Nat :=
  [0x45, 0, 0, 28, 0, 1, 0x20, 0, 64, 99, 0, 0,
   0, 0, 0, 0, 0, 0, 0, 0] ++ [1, 2, 3, 4, 5, 6, 7, 8]

/-- Final fragment (`MF = 0`, offset 8 bytes) completing the same datagram. -/
def c2pkt2 : List Nat :=
  [0x45, 0, 0, 28, 0, 1, 0x00, 1, 64, 99, 0, 0,
   0, 0, 0, 0, 0, 0, 0, 0] ++ [9, 10, 11, 12, 13, 14, 15, 16]

/-- Environment for the unknown-protocol scenario: RX checksum offload on
(so the checksum step is skipped), host address 0, only TCP and ICMP
registered — exactly the constructor registrations of `ipv4`. -/
def c2env : RxEnv :=
  { rx_csum_offload := true, registered := fun pr => pr == 6 || pr == 1 }

/-- A coherent reassembly state holding 3,500,000 bytes — between the low
(3 MiB = 3,145,728) and high (4 MiB = 4,194,304) thresholds. -/
def c3state : IpState :=
  { frags := [(⟨1, 2, 3, 4⟩, { mem_size := 3500000 })],
    frags_age := [⟨1, 2, 3, 4⟩],
    frag_mem := 3500000 }

/-- A coherent reassembly state with one entry received at time 0. -/
def c5state : IpState :=
  { frags := [(⟨1, 2, 3, 4⟩, { mem_size := 100, rx_time := 0 })],
    frags_age := [⟨1, 2, 3, 4⟩],
    frag_mem := 100,
    timer_armed := true,
    timer_expiry := 30 }

/-- Two atomic packets of the flow `10.0.0.5:1234 → 10.0.0.1:80`, TCP, with
different ids, TTLs and payloads. -/
def c8pkt1 : List Nat :=
  [0x45, 0, 0, 24, 0, 7, 0, 0, 64, 6, 0, 0, 10, 0, 0, 5, 10, 0, 0, 1] ++
  [0x04, 0xD2, 0x00, 0x50]

def c8pkt2 : List Nat :=
  [0x45, 0, 0, 24, 0, 9, 0, 0, 32, 6, 0, 0, 10, 0, 0, 5, 10, 0, 0, 1] ++
  [0x04, 0xD2, 0x00, 0x50]

/-- The 16-byte payload used in the C1 witness. -/
def c1P : List Nat := [1, 2, 3, 4, 5, 6, 7, 8, 9, 10, 11, 12, 13, 14, 15, 16]

/-- The witness arrival order: the final fragment (offset 8, MF = 0) arrives
before the first fragment (offset 0, MF = 1); each carries a 20-byte IP
header in front of its payload chunk. -/
def c1arrival : List (IpHdr × List Nat) :=
  [({ frag := 1 }, List.replicate 20 0 ++ [9, 10, 11, 12, 13, 14, 15, 16]),
   ({ frag := 0x2000 }, List.replicate 20 0 ++ [1, 2, 3, 4, 5, 6, 7, 8])]

/-! ## C9/C10: the DPDK transmit adapter -/

theorem copyFragLoop_fail_frees (a : Nat → Bool) :
    ∀ fuel i left nsegs,
      (copyFragLoop a fuel i left nsegs).res = FragCopyRes.failed →
      (copyFragLoop a fuel i left nsegs).freed =
        (copyFragLoop a fuel i left nsegs).alloc := by
  intro fuel
  induction fuel with
  | zero => intro i left nsegs h; simp [copyFragLoop] at h
  | succ fuel ih =>
    intro i left nsegs h
    by_cases h0 : left = 0
    · simp [copyFragLoop, h0] at h
    · rcases hai : a i with _ | _
      · have hr : copy_one_data_buf a i left = (i + 1, 0) := by
          simp [copy_one_data_buf, hai]
        simp [copyFragLoop, h0, hr]
      · have hr : copy_one_data_buf a i left =
            (i + 1, min left mbuf_data_size) := by
          simp [copy_one_data_buf, hai]
        have hmin : ¬ (min left mbuf_data_size = 0) := by
          simp only [mbuf_data_size]; omega
        simp only [copyFragLoop, h0, ite_false, hr, hmin, reduceIte] at h ⊢
        exact ih _ _ _ h

theorem copy_one_frag_fail_frees (a : Nat → Bool) (i size : Nat)
    (h : (copy_one_frag a i size).res = FragCopyRes.failed) :
    (copy_one_frag a i size).freed = (copy_one_frag a i size).alloc := by
  by_cases h0 : size = 0
  · simp [copy_one_frag, h0] at h
  · rcases hai : a i with _ | _
    · have hr : copy_one_data_buf a i size = (i + 1, 0) := by
        simp [copy_one_data_buf, hai]
      simp [copy_one_frag, h0, hr]
    · have hr : copy_one_data_buf a i size =
          (i + 1, min size mbuf_data_size) := by
        simp [copy_one_data_buf, hai]
      have hmin : ¬ (min size mbuf_data_size = 0) := by
        simp only [mbuf_data_size]; omega
      simp only [copy_one_frag, h0, ite_false, hr, hmin, reduceIte] at h ⊢
      exact copyFragLoop_fail_frees a size _ _ _ h

theorem sendFragsLoop_drop_frees (a : Nat → Bool) :
    ∀ (rest : List Nat) (i acc nsegs : Nat),
      (sendFragsLoop a i rest acc nsegs).res = TxRes.silent_drop →
      (sendFragsLoop a i rest acc nsegs).freed =
        (sendFragsLoop a i rest acc nsegs).alloc := by
  intro rest
  induction rest with
  | nil => intro i acc nsegs h; simp [sendFragsLoop] at h
  | cons sz rest ih =>
    intro i acc nsegs h
    simp only [sendFragsLoop] at h ⊢
    rcases hres : (copy_one_frag a i sz).res with _ | _ | n
    · rw [hres] at h
      simp at h
    · rw [hres] at h
      have hf := copy_one_frag_fail_frees a i sz hres
      dsimp only at h ⊢
      omega
    · rw [hres] at h
      dsimp only at h ⊢
      exact ih _ _ _ h

/-- C9: for every packet submitted to `net_device::send`, a zero-length
packet succeeds immediately without touching the driver; a packet with more
than 32 fragments is linearized before copying (so the call behaves exactly
like the call on the single linearized fragment); and whenever the call
ends in the allocation-failure silent drop, every driver buffer that was
allocated has been freed. -/
theorem C9_net_device_send_error_handling (alloc_ok : Nat → Bool)
    (frag_sizes : List Nat) :
    (frag_sizes.sum = 0 →
      net_device_send alloc_ok frag_sizes =
        { alloc := 0, freed := 0, res := TxRes.success_no_tx }) ∧
    (frag_sizes.sum ≠ 0 → frag_sizes.length > max_frags →
      net_device_send alloc_ok frag_sizes =
        net_device_send alloc_ok [frag_sizes.sum]) ∧
    ((net_device_send alloc_ok frag_sizes).res = TxRes.silent_drop →
      (net_device_send alloc_ok frag_sizes).freed =
        (net_device_send alloc_ok frag_sizes).alloc) := by
  refine ⟨fun h0 => by simp [net_device_send, h0], fun h0 hlin => ?_,
    fun hdrop => ?_⟩
  · simp only [net_device_send, List.sum_cons, List.sum_nil, Nat.add_zero,
      List.length_cons, List.length_nil]
    rw [if_neg h0, if_neg h0, if_pos hlin,
        if_neg (by simp only [max_frags]; omega)]
  · simp only [net_device_send] at hdrop ⊢
    by_cases hs : frag_sizes.sum = 0
    · rw [if_pos hs] at hdrop; simp at hdrop
    · rw [if_neg hs] at hdrop ⊢
      by_cases hl : frag_sizes.length > max_frags
      · rw [if_pos hl] at hdrop ⊢
        exact sendFragsLoop_drop_frees alloc_ok _ _ _ _ hdrop
      · rw [if_neg hl] at hdrop ⊢
        exact sendFragsLoop_drop_frees alloc_ok _ _ _ _ hdrop

/-- C9 witness: a two-fragment packet under an always-failing allocator is
silently dropped with every allocated buffer freed. -/
theorem C9_net_device_send_error_handling_witness :
    (net_device_send (fun _ => false) [1, 2]).res = TxRes.silent_drop ∧
    (net_device_send (fun _ => false) [1, 2]).freed =
      (net_device_send (fun _ => false) [1, 2]).alloc :=
  ⟨by decide,
   (C9_net_device_send_error_handling (fun _ => false) [1, 2]).2.2 (by decide)⟩

/-- C10 counterexample: a 33-fragment packet of nonzero total length whose
first fragment has size zero is linearized (scatter limit exceeded) and then
transmitted normally — the process is not aborted, refuting the claim that
every nonzero-length packet containing a zero-size fragment aborts. -/
theorem C10_counterexample :
    (0 : Nat) ∈ (0 :: List.replicate 32 1) ∧
    (0 :: List.replicate 32 1).sum ≠ 0 ∧
    (net_device_send (fun _ => true) (0 :: List.replicate 32 1)).res ≠
      TxRes.aborted := by
  decide

theorem copyFragLoop_all_ok (a : Nat → Bool) (hall : ∀ i, a i = true) :
    ∀ fuel i left nsegs, (copyFragLoop a fuel i left nsegs).res =
      FragCopyRes.ok ((copyFragLoop a fuel i left nsegs).alloc) := by
  intro fuel
  induction fuel with
  | zero => intro i left nsegs; simp [copyFragLoop]
  | succ fuel ih =>
    intro i left nsegs
    by_cases h0 : left = 0
    · simp [copyFragLoop, h0]
    · have hr : copy_one_data_buf a i left =
          (i + 1, min left mbuf_data_size) := by
        simp [copy_one_data_buf, hall i]
      have hmin : ¬ (min left mbuf_data_size = 0) := by
        simp only [mbuf_data_size]; omega
      simp only [copyFragLoop, h0, ite_false, hr, hmin, reduceIte]
      exact ih _ _ _

theorem copy_one_frag_all_ok (a : Nat → Bool) (hall : ∀ i, a i = true)
    (i size : Nat) (hsz : size ≠ 0) :
    (copy_one_frag a i size).res =
      FragCopyRes.ok ((copy_one_frag a i size).alloc) := by
  have hr : copy_one_data_buf a i size =
      (i + 1, min size mbuf_data_size) := by
    simp [copy_one_data_buf, hall i]
  have hmin : ¬ (min size mbuf_data_size = 0) := by
    simp only [mbuf_data_size]; omega
  simp only [copy_one_frag, hsz, ite_false, hr, hmin, reduceIte]
  exact copyFragLoop_all_ok a hall size _ _ _

theorem sendFragsLoop_zero_aborts (a : Nat → Bool) (hall : ∀ i, a i = true) :
    ∀ (rest : List Nat) (i acc nsegs : Nat), 0 ∈ rest →
      (sendFragsLoop a i rest acc nsegs).res = TxRes.aborted := by
  intro rest
  induction rest with
  | nil => intro i acc nsegs h; simp at h
  | cons sz rest ih =>
    intro i acc nsegs h
    simp only [sendFragsLoop]
    by_cases h0 : sz = 0
    · subst h0
      have hc : copy_one_frag a i 0 =
          { next := i, alloc := 0, freed := 0, res := FragCopyRes.aborted } := by
        simp [copy_one_frag]
      rw [hc]
    · have hz : 0 ∈ rest := by
        rcases List.mem_cons.mp h with h | h
        · omega
        · exact h
      rw [copy_one_frag_all_ok a hall i sz h0]
      exact ih _ _ _ hz

/-- C10 amended: for every nonzero-length packet of at most 32 fragments
(so it is not linearized), if every driver-buffer allocation succeeds then
a zero-size fragment causes the `rte_exit` process abort in
`copy_one_frag`. -/
theorem C10_zero_size_frag_aborts (alloc_ok : Nat → Bool)
    (frag_sizes : List Nat) (hall : ∀ i, alloc_ok i = true)
    (hlen : frag_sizes.length ≤ max_frags)
    (hsum : frag_sizes.sum ≠ 0) (hz : 0 ∈ frag_sizes) :
    (net_device_send alloc_ok frag_sizes).res = TxRes.aborted := by
  unfold net_device_send
  rw [if_neg hsum, if_neg (by omega)]
  exact sendFragsLoop_zero_aborts alloc_ok hall frag_sizes 0 0 0 hz

theorem C10_zero_size_frag_aborts_witness :
    (net_device_send (fun _ => true) [0, 1]).res = TxRes.aborted :=
  C10_zero_size_frag_aborts (fun _ => true) [0, 1] (fun _ => rfl)
    (by decide) (by decide) (by decide)
/-! ## C7: transmit-side fragmentation -/

theorem getLast?_cons_ne_nil {α : Type} {x : α} {l : List α} (h : l ≠ []) :
    (x :: l).getLast? = l.getLast? := by
  cases l with
  | nil => exact absurd rfl h
  | cons b t => exact List.getLast?_cons_cons

theorem sendLoop_zero (mtu fuel off : Nat) : sendLoop mtu fuel 0 off = [] := by
  cases fuel <;> rfl

theorem sendLoop_succ (mtu fuel r off : Nat) :
    sendLoop mtu (fuel + 1) (r + 1) off =
      { mf := decide (0 < r + 1 - min (mtu - ipv4_hdr_len_min) (r + 1))
        offset_units := off / 8
        len := min (mtu - ipv4_hdr_len_min) (r + 1) + 20
        payload_len := min (mtu - ipv4_hdr_len_min) (r + 1) } ::
      sendLoop mtu fuel (r + 1 - min (mtu - ipv4_hdr_len_min) (r + 1))
        (off + min (mtu - ipv4_hdr_len_min) (r + 1)) := rfl

theorem sendLoop_length (mtu : Nat) (hmtu : ipv4_hdr_len_min < mtu) :
    ∀ fuel r off, r ≤ fuel → r ≠ 0 →
      (sendLoop mtu fuel r off).length =
        (r + (mtu - ipv4_hdr_len_min) - 1) / (mtu - ipv4_hdr_len_min) := by
  intro fuel
  induction fuel with
  | zero => intro r off hr h0; omega
  | succ fuel ih =>
    intro r off hr h0
    rcases Nat.exists_eq_succ_of_ne_zero h0 with ⟨r', rfl⟩
    rw [sendLoop_succ]
    set c := mtu - ipv4_hdr_len_min with hc
    have hcpos : 0 < c := by simp only [hc, ipv4_hdr_len_min] at *; omega
    by_cases hle : r' + 1 ≤ c
    · have hz : r' + 1 - min c (r' + 1) = 0 := by omega
      rw [hz, sendLoop_zero]
      have he : r' + 1 + c - 1 = r' + c := by omega
      rw [List.length_cons, List.length_nil, he, Nat.add_div_right _ hcpos,
          Nat.div_eq_of_lt (by omega)]
    · have hmin : min c (r' + 1) = c := by omega
      rw [hmin]
      have h1 : r' + 1 - c ≠ 0 := by omega
      have h2 : r' + 1 - c ≤ fuel := by omega
      rw [List.length_cons, ih (r' + 1 - c) _ h2 h1]
      have e1 : r' + 1 - c + c - 1 = r' + 1 - 1 := by omega
      have e2 : r' + 1 + c - 1 = (r' + 1 - 1) + 1 * c := by omega
      rw [e1, e2, Nat.add_mul_div_right _ _ hcpos]

theorem sendLoop_mf (mtu : Nat) (hmtu : ipv4_hdr_len_min < mtu) :
    ∀ fuel r off, r ≤ fuel → r ≠ 0 →
      sendLoop mtu fuel r off ≠ [] ∧
      (∀ fr ∈ (sendLoop mtu fuel r off).dropLast, fr.mf = true) ∧
      (∀ fr, (sendLoop mtu fuel r off).getLast? = some fr → fr.mf = false) := by
  intro fuel
  induction fuel with
  | zero => intro r off hr h0; omega
  | succ fuel ih =>
    intro r off hr h0
    rcases Nat.exists_eq_succ_of_ne_zero h0 with ⟨r', rfl⟩
    rw [sendLoop_succ]
    set c := mtu - ipv4_hdr_len_min with hc
    have hcpos : 0 < c := by simp only [hc, ipv4_hdr_len_min] at *; omega
    by_cases hz : r' + 1 - min c (r' + 1) = 0
    · rw [hz, sendLoop_zero]
      refine ⟨by simp, by simp, ?_⟩
      intro fr hfr
      rw [List.getLast?_singleton, Option.some_inj] at hfr
      rw [← hfr]
      simp [hz]
    · have h2 : r' + 1 - min c (r' + 1) ≤ fuel := by omega
      rcases ih (r' + 1 - min c (r' + 1)) (off + min c (r' + 1)) h2 hz with
        ⟨hne, hmf, hlast⟩
      refine ⟨by simp, ?_, ?_⟩
      · intro fr hfr
        rw [List.dropLast_cons_of_ne_nil hne] at hfr
        rcases List.mem_cons.mp hfr with h | h
        · rw [h]
          simp only [decide_eq_true_eq]
          omega
        · exact hmf fr h
      · intro fr hfr
        rw [getLast?_cons_ne_nil hne] at hfr
        exact hlast fr hfr

theorem sendLoop_offsets (mtu : Nat) (hmtu : ipv4_hdr_len_min + 8 ≤ mtu) :
    ∀ fuel r off, r ≤ fuel →
      List.Chain' (· < ·)
        ((sendLoop mtu fuel r off).map (fun fr => fr.offset_units)) ∧
      (r ≠ 0 →
        ((sendLoop mtu fuel r off).map (fun fr => fr.offset_units)).head? =
          some (off / 8)) := by
  intro fuel
  induction fuel with
  | zero =>
    intro r off hr
    have h0 : r = 0 := by omega
    subst h0
    simp [sendLoop_zero]
  | succ fuel ih =>
    intro r off hr
    rcases Nat.eq_zero_or_pos r with h0 | h0
    · subst h0; simp [sendLoop_zero]
    · have h0' : r ≠ 0 := by omega
      rcases Nat.exists_eq_succ_of_ne_zero h0' with ⟨r', rfl⟩
      rw [sendLoop_succ]
      set c := mtu - ipv4_hdr_len_min with hc
      have hc8 : 8 ≤ c := by simp only [hc, ipv4_hdr_len_min] at *; omega
      have h2 : r' + 1 - min c (r' + 1) ≤ fuel := by omega
      rcases ih (r' + 1 - min c (r' + 1)) (off + min c (r' + 1)) h2 with
        ⟨hchain, hhead⟩
      refine ⟨?_, fun _ => by simp⟩
      simp only [List.map_cons]
      rw [List.chain'_cons']
      refine ⟨?_, hchain⟩
      intro y hy
      by_cases hz : r' + 1 - min c (r' + 1) = 0
      · rw [hz, sendLoop_zero] at hy
        simp at hy
      · rw [hhead hz] at hy
        rw [Option.mem_def, Option.some_inj] at hy
        have hminc : min c (r' + 1) = c := by omega
        have hlt : off / 8 < (off + min c (r' + 1)) / 8 := by
          rw [hminc]
          calc off / 8 < (off + 8) / 8 := by
                rw [Nat.add_div_right _ (by norm_num)]; omega
            _ ≤ (off + c) / 8 := Nat.div_le_div_right (by omega)
        omega

/-- C7: `ipv4::send` on a body of `len` bytes: fragmentation is needed iff
`len + 20` exceeds the MTU and the protocol has no segmentation offload;
without fragmentation exactly one frame is emitted with `MF = 0` and offset
0; with fragmentation exactly `⌈len / (MTU − 20)⌉` frames are emitted whose
offset fields start at 0 and strictly increase in 8-byte units, with
`MF = 1` on every frame except the last, which has `MF = 0`.  (The MTU is
at least 28 so that each full fragment covers at least one 8-byte unit, and
`len` fits the 16-bit length register of the loop.) -/
theorem C7_send_fragmentation (len prot_num : Nat) (hw : HwFeatures)
    (hmtu : 28 ≤ hw.mtu) (hlen : len < 65536) :
    (needs_frag len prot_num hw = false ↔
      len + ipv4_hdr_len_min ≤ hw.mtu ∨
        (prot_num = proto_tcp ∧ hw.tx_tso = true) ∨
        (prot_num = proto_udp ∧ hw.tx_ufo = true)) ∧
    (needs_frag len prot_num hw = false →
      ipv4_send len prot_num hw =
        [{ mf := false, offset_units := 0, len := len + 20,
           payload_len := len }]) ∧
    (needs_frag len prot_num hw = true →
      (ipv4_send len prot_num hw).length =
          (len + (hw.mtu - ipv4_hdr_len_min) - 1) / (hw.mtu - ipv4_hdr_len_min) ∧
      ((ipv4_send len prot_num hw).map (fun fr => fr.offset_units)).head? =
          some 0 ∧
      List.Chain' (· < ·)
        ((ipv4_send len prot_num hw).map (fun fr => fr.offset_units)) ∧
      (∀ fr ∈ (ipv4_send len prot_num hw).dropLast, fr.mf = true) ∧
      (∀ fr, (ipv4_send len prot_num hw).getLast? = some fr →
        fr.mf = false)) := by
  have hiff : needs_frag len prot_num hw = false ↔
      len + ipv4_hdr_len_min ≤ hw.mtu ∨
        (prot_num = proto_tcp ∧ hw.tx_tso = true) ∨
        (prot_num = proto_udp ∧ hw.tx_ufo = true) := by
    unfold needs_frag
    have hne : proto_tcp ≠ proto_udp := by decide
    rcases hts : hw.tx_tso with _ | _ <;> rcases hus : hw.tx_ufo with _ | _ <;>
      by_cases h1 : len + ipv4_hdr_len_min ≤ hw.mtu <;>
      by_cases hp1 : prot_num = proto_tcp <;>
      by_cases hp2 : prot_num = proto_udp <;>
      simp_all
  refine ⟨hiff, fun hnf => ?_, fun hnf => ?_⟩
  · simp [ipv4_send, hnf]
  · have hgt : ¬ (len + ipv4_hdr_len_min ≤ hw.mtu) := by
      intro hcon
      have : needs_frag len prot_num hw = false := hiff.mpr (Or.inl hcon)
      rw [hnf] at this
      exact Bool.noConfusion this
    have hlen0 : len ≠ 0 := by
      simp only [ipv4_hdr_len_min] at hgt; omega
    have hmod : len % 65536 = len := Nat.mod_eq_of_lt hlen
    have hsend : ipv4_send len prot_num hw =
        sendLoop hw.mtu len len 0 := by
      simp [ipv4_send, hnf, hmod]
    have hmtu' : ipv4_hdr_len_min < hw.mtu := by
      simp only [ipv4_hdr_len_min]; omega
    have hmtu8 : ipv4_hdr_len_min + 8 ≤ hw.mtu := by
      simp only [ipv4_hdr_len_min]; omega
    rcases sendLoop_mf hw.mtu hmtu' len len 0 le_rfl hlen0 with ⟨_, hmf, hlast⟩
    rcases sendLoop_offsets hw.mtu hmtu8 len len 0 le_rfl with ⟨hchain, hhead⟩
    rw [hsend]
    exact ⟨sendLoop_length hw.mtu hmtu' len len 0 le_rfl hlen0,
      hhead hlen0, hchain, hmf, hlast⟩

/-- C7 witness: a 100-byte UDP body over MTU 58 and no offloads fragments
into ⌈100/38⌉ = 3 frames with offsets 0 < 4 < 9 and MF pattern
true/true/false; a 30-byte body goes out as a single unfragmented frame. -/
theorem C7_send_fragmentation_witness :
    (needs_frag 30 17 { mtu := 58 } = false →
      ipv4_send 30 17 { mtu := 58 } =
        [{ mf := false, offset_units := 0, len := 50, payload_len := 30 }]) ∧
    ((ipv4_send 100 17 { mtu := 58 }).length = 3 ∧
      (∀ fr, (ipv4_send 100 17 { mtu := 58 }).getLast? = some fr →
        fr.mf = false)) :=
  ⟨fun h => (C7_send_fragmentation 30 17 { mtu := 58 } (by decide)
      (by decide)).2.1 h,
   by
    rcases (C7_send_fragmentation 100 17 { mtu := 58 } (by decide)
        (by decide)).2.2 (by decide) with ⟨hl, _, _, _, hlast⟩
    exact ⟨by rw [hl]; decide, hlast⟩⟩

/-! ## C6: the receive-side IP header checksum -/

/-- C6 counterexample: `handle_received_packet` sums `sizeof(ip_hdr)` = 20
bytes, not `ihl * 4`.  On `c6pkt` the one's-complement sum over the
`ihl * 4 = 24` header bytes is nonzero, so the claim demands a drop, yet the
packet is accepted and delivered because the 20-byte sum it actually checks
is zero. -/
theorem C6_counterexample :
    c6env.rx_csum_offload = false ∧
    csumGet (c6pkt.take ((parseIpHdr c6pkt).ihl * 4)) ≠ 0 ∧
    (handle_received_packet c6env 0 {} c6pkt false [] []).2 =
      RxAction.deliver 6 [0xAA, 0xBB, 0xCC, 0xDD] 0x0A000005 0x0A000001 := by
  decide

/-- C6 amended: when RX checksum offload is not active and the packet is not
marked reassembled, `ipv4::handle_received_packet` computes the one's-
complement checksum over the fixed 20-byte `sizeof(ip_hdr)` prefix of the
header (regardless of `ihl`) and drops the packet, returning a ready future
without delivery, whenever that sum is nonzero. -/
theorem C6_checksum_drop (env : RxEnv) (now : Nat) (s : IpState)
    (p : List Nat) (reassembled : Bool) (eth_src eth_dst : List Nat)
    (hoff : env.rx_csum_offload = false) (hre : reassembled = false)
    (hlen : 20 ≤ p.length) (hcs : csumGet (p.take 20) ≠ 0) :
    handle_received_packet env now s p reassembled eth_src eth_dst =
      (s, RxAction.drop) := by
  unfold handle_received_packet
  rw [if_neg (by omega)]
  simp [hoff, hre, hcs]

/-- C6 witness: a 20-byte all-zero header has nonzero one's-complement
checksum and is dropped. -/
theorem C6_checksum_drop_witness :
    handle_received_packet {} 0 {} (List.replicate 20 0) false [] [] =
      ({}, RxAction.drop) :=
  C6_checksum_drop {} 0 {} (List.replicate 20 0) false [] [] rfl rfl
    (by decide) (by decide)

/-! ## C2: unknown-protocol handling -/

/-- C2: in the non-fragment branch an unknown protocol is indeed silently
dropped, but in the reassembly branch the claim fails against the code:
when the entry completes, `handle_received_packet` reads `_l4[h.ip_proto]`,
leaves `cpu_id` at the current core when the lookup is null, and then calls
`l4->received(...)` without a null check (ip.cc:150-158) — a null-handler
dereference instead of a silent drop.  This theorem evaluates the model at
the failing input: two fragments of protocol 99 complete a datagram and the
second call ends in the null dereference. -/
theorem C2_unknown_protocol_null_deref :
    c2env.registered 99 = false ∧
    (handle_received_packet c2env 6
        (handle_received_packet c2env 5 {} c2pkt1 false
          [0, 0, 0, 0, 0, 0] [0, 0, 0, 0, 0, 0]).1
        c2pkt2 false [0, 0, 0, 0, 0, 0] [0, 0, 0, 0, 0, 0]).2 =
      RxAction.null_deref := by
  decide
/-! ## C3: memory-pressure eviction -/

theorem eraseFrag_of_not_mem (l : List (FragId × Frag)) (k : FragId)
    (h : k ∉ l.map Prod.fst) : eraseFrag l k = l := by
  induction l with
  | nil => rfl
  | cons kf rest ih =>
    simp only [List.map_cons, List.mem_cons, not_or] at h
    have h1 : (kf.1 ≠ k) := fun he => h.1 he.symm
    have h2 := ih h.2
    simp only [eraseFrag] at h2 ⊢
    rw [List.filter_cons_of_pos (by simpa using h1), h2]

theorem getFrag_of_not_mem (l : List (FragId × Frag)) (k : FragId)
    (h : k ∉ l.map Prod.fst) : getFrag l k = {} := by
  induction l with
  | nil => rfl
  | cons kf rest ih =>
    simp only [List.map_cons, List.mem_cons, not_or] at h
    have h1 : ¬ (kf.1 = k) := fun he => h.1 he.symm
    have h2 := ih h.2
    simp only [getFrag, findFrag, List.find?_cons, decide_eq_false h1] at h2 ⊢
    exact h2

theorem sumMem_erase (l : List (FragId × Frag)) (k : FragId)
    (hnd : (l.map Prod.fst).Nodup) :
    (getFrag l k).mem_size ≤ sumMem l ∧
    sumMem (eraseFrag l k) = sumMem l - (getFrag l k).mem_size := by
  induction l with
  | nil => simp [sumMem, eraseFrag, getFrag, findFrag]
  | cons kf rest ih =>
    simp only [List.map_cons, List.nodup_cons] at hnd
    rcases hnd with ⟨hk, hnd⟩
    by_cases he : kf.1 = k
    · have hget : getFrag (kf :: rest) k = kf.2 := by
        simp [getFrag, findFrag, List.find?_cons, he]
      have hker : k ∉ rest.map Prod.fst := he ▸ hk
      have herase : eraseFrag (kf :: rest) k = rest := by
        have h2 := eraseFrag_of_not_mem rest k hker
        simp only [eraseFrag] at h2 ⊢
        rw [List.filter_cons_of_neg (by simp [he]), h2]
      rw [hget, herase]
      simp only [sumMem, List.map_cons, List.sum_cons]
      omega
    · have hget : getFrag (kf :: rest) k = getFrag rest k := by
        simp [getFrag, findFrag, List.find?_cons, he]
      have herase : eraseFrag (kf :: rest) k = kf :: eraseFrag rest k := by
        simp only [eraseFrag]
        rw [List.filter_cons_of_pos (by simpa using he)]
      rcases ih hnd with ⟨ih1, ih2⟩
      rw [hget, herase]
      simp only [sumMem, List.map_cons, List.sum_cons] at *
      omega

theorem eraseFrag_keys_sublist (l : List (FragId × Frag)) (k : FragId) :
    ((eraseFrag l k).map Prod.fst).Sublist (l.map Prod.fst) :=
  List.Sublist.map Prod.fst (List.filter_sublist l)

theorem mem_eraseFrag (l : List (FragId × Frag)) (k : FragId)
    (kf : FragId × Frag) (h : kf ∈ eraseFrag l k) : kf ∈ l ∧ kf.1 ≠ k := by
  simp only [eraseFrag, List.mem_filter] at h
  rcases h with ⟨h1, h2⟩
  exact ⟨h1, by simpa using h2⟩

theorem limitLoop_spec :
    ∀ (age : List FragId) (frags : List (FragId × Frag)) (mem drop : Nat),
      mem = sumMem frags →
      (∀ kf ∈ frags, kf.1 ∈ age) →
      (frags.map Prod.fst).Nodup →
      (limitLoop frags mem drop age).2.1 =
          sumMem (limitLoop frags mem drop age).1 ∧
      (limitLoop frags mem drop age).2.1 ≤ mem ∧
      (∃ n, (limitLoop frags mem drop age).2.2 = age.drop n) ∧
      (drop ≤ mem - (limitLoop frags mem drop age).2.1 ∨
        (limitLoop frags mem drop age).1 = []) ∧
      (∀ kf ∈ (limitLoop frags mem drop age).1,
        kf.1 ∈ (limitLoop frags mem drop age).2.2) ∧
      ((limitLoop frags mem drop age).1.map Prod.fst).Nodup := by
  intro age
  induction age with
  | nil =>
    intro frags mem drop hmem hkeys hnd
    have hempty : frags = [] := by
      rw [List.eq_nil_iff_forall_not_mem]
      intro kf hkf
      exact absurd (hkeys kf hkf) (by simp)
    subst hempty
    exact ⟨by simpa [limitLoop] using hmem, le_rfl, ⟨0, rfl⟩, Or.inr rfl,
      by simp [limitLoop], by simp [limitLoop]⟩
  | cons k rest ih =>
    intro frags mem drop hmem hkeys hnd
    by_cases hd : drop = 0
    · subst hd
      exact ⟨by simpa [limitLoop] using hmem, le_rfl, ⟨0, rfl⟩,
        Or.inl (by omega), by simpa [limitLoop] using hkeys,
        by simpa [limitLoop] using hnd⟩
    · have hstep : limitLoop frags mem drop (k :: rest) =
          limitLoop (eraseFrag frags k) (mem - (getFrag frags k).mem_size)
            (drop - min drop (getFrag frags k).mem_size) rest := by
        simp [limitLoop, hd]
      rcases sumMem_erase frags k hnd with ⟨hle, herase⟩
      have hdsle : (getFrag frags k).mem_size ≤ mem := hmem ▸ hle
      have hmem' : mem - (getFrag frags k).mem_size =
          sumMem (eraseFrag frags k) := by omega
      have hkeys' : ∀ kf ∈ eraseFrag frags k, kf.1 ∈ rest := by
        intro kf hkf
        rcases mem_eraseFrag frags k kf hkf with ⟨hin, hne⟩
        rcases List.mem_cons.mp (hkeys kf hin) with h | h
        · exact absurd h hne
        · exact h
      have hnd' : ((eraseFrag frags k).map Prod.fst).Nodup :=
        (eraseFrag_keys_sublist frags k).nodup hnd
      rcases ih (eraseFrag frags k) (mem - (getFrag frags k).mem_size)
          (drop - min drop (getFrag frags k).mem_size) hmem' hkeys' hnd' with
        ⟨ra, rm, ⟨n, rb⟩, rc, rd, re⟩
      rw [hstep]
      refine ⟨ra, by omega, ⟨n + 1, by simpa using rb⟩, ?_, rd, re⟩
      rcases rc with rc | rc
      · left; omega
      · right; exact rc

/-- C3 counterexample: a coherent state with `frag_mem` = 3,500,000 bytes —
strictly between the low (3 MiB) and high (4 MiB) thresholds — and one live
entry.  `frag_limit_mem` changes nothing (as the claim itself requires for
`frag_mem ≤ high`), so afterwards `frag_mem > frag_low_thresh` and the table
is non-empty: the claimed unconditional postcondition
"`frag_mem ≤ frag_low_thresh` or the table is empty" is false. -/
theorem C3_counterexample :
    (c3state.frag_mem = sumMem c3state.frags ∧
      (∀ kf ∈ c3state.frags, kf.1 ∈ c3state.frags_age) ∧
      (c3state.frags.map Prod.fst).Nodup) ∧
    c3state.frag_limit_mem = c3state ∧
    frag_low_thresh < c3state.frag_limit_mem.frag_mem ∧
    c3state.frag_limit_mem.frags ≠ [] := by
  decide

/-- C3 amended: on a coherent state (`frag_mem` equals the summed
`mem_size`, every table key is on the age list, keys unique):
if `frag_mem ≤ frag_high_thresh` (4 MiB) on entry, `frag_limit_mem` changes
nothing; if `frag_mem > frag_high_thresh`, afterwards either
`frag_mem ≤ frag_low_thresh` (3 MiB) or the table is empty; and in all cases
entries are dropped oldest-first (the surviving age list is a suffix of the
old one) decrementing `frag_mem` by each dropped entry's `mem_size` (so
`frag_mem` still equals the summed `mem_size` afterwards). -/
theorem C3_frag_limit_mem (s : IpState)
    (hmem : s.frag_mem = sumMem s.frags)
    (hkeys : ∀ kf ∈ s.frags, kf.1 ∈ s.frags_age)
    (hnd : (s.frags.map Prod.fst).Nodup) :
    (s.frag_mem ≤ frag_high_thresh → s.frag_limit_mem = s) ∧
    (frag_high_thresh < s.frag_mem →
      s.frag_limit_mem.frag_mem ≤ frag_low_thresh ∨
        s.frag_limit_mem.frags = []) ∧
    (∃ n, s.frag_limit_mem.frags_age = s.frags_age.drop n) ∧
    s.frag_limit_mem.frag_mem = sumMem s.frag_limit_mem.frags := by
  by_cases hhigh : s.frag_mem ≤ frag_high_thresh
  · have hid : s.frag_limit_mem = s := by
      simp [IpState.frag_limit_mem, hhigh]
    exact ⟨fun _ => hid, fun hc => absurd hhigh (by omega),
      ⟨0, by rw [hid, List.drop_zero]⟩, by rw [hid]; exact hmem⟩
  · rcases limitLoop_spec s.frags_age s.frags s.frag_mem
        (s.frag_mem - frag_low_thresh) hmem hkeys hnd with
      ⟨ra, rm, ⟨n, rb⟩, rc, _, _⟩
    have hunfold : s.frag_limit_mem =
        { s with
          frags := (limitLoop s.frags s.frag_mem
            (s.frag_mem - frag_low_thresh) s.frags_age).1
          frag_mem := (limitLoop s.frags s.frag_mem
            (s.frag_mem - frag_low_thresh) s.frags_age).2.1
          frags_age := (limitLoop s.frags s.frag_mem
            (s.frag_mem - frag_low_thresh) s.frags_age).2.2 } := by
      simp [IpState.frag_limit_mem, hhigh]
    refine ⟨fun hc => absurd hc hhigh, fun _ => ?_, ⟨n, by rw [hunfold]; exact rb⟩,
      by rw [hunfold]; exact ra⟩
    rcases rc with rc | rc
    · left
      rw [hunfold]
      simp only
      have hlh : frag_low_thresh < frag_high_thresh := by decide
      omega
    · right
      rw [hunfold]
      exact rc

/-- C3 witness: a single 5 MiB entry is above the 4 MiB high threshold and
eviction empties the table; a state at 3 MiB is left untouched. -/
theorem C3_frag_limit_mem_witness :
    (({ frags := [(⟨1, 2, 3, 4⟩, { mem_size := 5242880 })],
        frags_age := [⟨1, 2, 3, 4⟩],
        frag_mem := 5242880 } : IpState).frag_limit_mem.frag_mem ≤
          frag_low_thresh ∨
      ({ frags := [(⟨1, 2, 3, 4⟩, { mem_size := 5242880 })],
         frags_age := [⟨1, 2, 3, 4⟩],
         frag_mem := 5242880 } : IpState).frag_limit_mem.frags = []) ∧
    ({ frags := [], frags_age := [], frag_mem := 0 } : IpState).frag_limit_mem =
      { frags := [], frags_age := [], frag_mem := 0 } :=
  ⟨(C3_frag_limit_mem _ (by decide) (by decide) (by decide)).2.1 (by decide),
   (C3_frag_limit_mem _ (by decide) (by decide) (by decide)).1 (by decide)⟩

/-! ## C5: the reassembly timeout sweep -/

theorem getFrag_eq_of_mem (l : List (FragId × Frag)) (k : FragId) (f : Frag)
    (hnd : (l.map Prod.fst).Nodup) (h : (k, f) ∈ l) : getFrag l k = f := by
  induction l with
  | nil => simp at h
  | cons kf rest ih =>
    simp only [List.map_cons, List.nodup_cons] at hnd
    rcases List.mem_cons.mp h with h | h
    · rw [← h]
      simp [getFrag, findFrag, List.find?_cons]
    · have hne : ¬ (kf.1 = k) := by
        intro he
        exact hnd.1 (he ▸ (List.mem_map.mpr ⟨(k, f), h, rfl⟩))
      simp only [getFrag, findFrag, List.find?_cons, decide_eq_false hne]
      exact ih hnd.2 h

theorem getFrag_erase_ne (l : List (FragId × Frag)) (k j : FragId)
    (h : j ≠ k) : getFrag (eraseFrag l k) j = getFrag l j := by
  induction l with
  | nil => rfl
  | cons kf rest ih =>
    by_cases he : kf.1 = k
    · have h1 : ¬ (kf.1 = j) := by rw [he]; exact fun hc => h hc.symm
      simp only [eraseFrag] at ih ⊢
      rw [List.filter_cons_of_neg (by simp [he])]
      simp only [getFrag, findFrag, List.find?_cons, decide_eq_false h1] at ih ⊢
      exact ih
    · simp only [eraseFrag] at ih ⊢
      rw [List.filter_cons_of_pos (by simpa using he)]
      by_cases hj : kf.1 = j
      · simp [getFrag, findFrag, List.find?_cons, hj]
      · simp only [getFrag, findFrag, List.find?_cons, decide_eq_false hj]
        exact ih

theorem keys_eraseFrag_not_mem (l : List (FragId × Frag)) (k : FragId) :
    k ∉ (eraseFrag l k).map Prod.fst := by
  intro hmem
  rcases List.mem_map.mp hmem with ⟨kf, hkf, hfst⟩
  rcases mem_eraseFrag l k kf hkf with ⟨_, hne⟩
  exact hne hfst

theorem timeoutSweep_spec (now : Nat) :
    ∀ (age : List FragId) (frags : List (FragId × Frag)) (mem : Nat),
      mem = sumMem frags →
      (frags.map Prod.fst).Nodup →
      (∀ kf ∈ frags, kf.1 ∈ age) →
      age.Nodup →
      age.Pairwise (fun a b =>
        (getFrag frags a).rx_time ≤ (getFrag frags b).rx_time) →
      (timeoutSweep now frags mem age).2.1 =
          sumMem (timeoutSweep now frags mem age).1 ∧
      (∃ n, (timeoutSweep now frags mem age).2.2 = age.drop n) ∧
      (∀ kf ∈ (timeoutSweep now frags mem age).1, kf ∈ frags) ∧
      (∀ kf ∈ (timeoutSweep now frags mem age).1,
        kf.1 ∈ (timeoutSweep now frags mem age).2.2) ∧
      ((timeoutSweep now frags mem age).1.map Prod.fst).Nodup ∧
      (∀ kf ∈ (timeoutSweep now frags mem age).1,
        ¬ (kf.2.rx_time + frag_timeout_secs < now)) ∧
      (∀ kf ∈ frags, kf.2.rx_time + frag_timeout_secs < now →
        kf.1 ∉ (timeoutSweep now frags mem age).1.map Prod.fst ∧
        kf.1 ∉ (timeoutSweep now frags mem age).2.2) := by
  intro age
  induction age with
  | nil =>
    intro frags mem hmem hnd hkeys hand hsort
    have hempty : frags = [] := by
      rw [List.eq_nil_iff_forall_not_mem]
      intro kf hkf
      exact absurd (hkeys kf hkf) (by simp)
    subst hempty
    simp [timeoutSweep, hmem]
  | cons k rest ih =>
    intro frags mem hmem hnd hkeys hand hsort
    simp only [List.nodup_cons] at hand
    rcases hand with ⟨hknr, hrnd⟩
    rcases List.pairwise_cons.mp hsort with ⟨hhead, htail⟩
    by_cases hexp : now > (getFrag frags k).rx_time + frag_timeout_secs
    · have hstep : timeoutSweep now frags mem (k :: rest) =
          timeoutSweep now (eraseFrag frags k)
            (mem - (getFrag frags k).mem_size) rest := by
        simp [timeoutSweep, hexp]
      rcases sumMem_erase frags k hnd with ⟨hle, herase⟩
      have hmem' : mem - (getFrag frags k).mem_size =
          sumMem (eraseFrag frags k) := by omega
      have hnd' : ((eraseFrag frags k).map Prod.fst).Nodup :=
        (eraseFrag_keys_sublist frags k).nodup hnd
      have hkeys' : ∀ kf ∈ eraseFrag frags k, kf.1 ∈ rest := by
        intro kf hkf
        rcases mem_eraseFrag frags k kf hkf with ⟨hin, hne⟩
        rcases List.mem_cons.mp (hkeys kf hin) with h | h
        · exact absurd h hne
        · exact h
      have hsort' : rest.Pairwise (fun a b =>
          (getFrag (eraseFrag frags k) a).rx_time ≤
            (getFrag (eraseFrag frags k) b).rx_time) := by
        refine htail.imp_of_mem ?_
        intro a b ha hb hr
        have hna : a ≠ k := fun he => hknr (he ▸ ha)
        have hnb : b ≠ k := fun he => hknr (he ▸ hb)
        rw [getFrag_erase_ne frags k a hna, getFrag_erase_ne frags k b hnb]
        exact hr
      rcases ih (eraseFrag frags k) (mem - (getFrag frags k).mem_size)
          hmem' hnd' hkeys' hrnd hsort' with
        ⟨r1, ⟨n, r2⟩, r3, r4, r5, r6, r7⟩
      rw [hstep]
      refine ⟨r1, ⟨n + 1, by simpa using r2⟩, ?_, r4, r5, r6, ?_⟩
      · intro kf hkf
        exact (mem_eraseFrag frags k kf (r3 kf hkf)).1
      · intro kf hkf hkfexp
        by_cases hkk : kf.1 = k
        · constructor
          · intro hcon
            rcases List.mem_map.mp hcon with ⟨kf', hkf', hfst⟩
            have : kf'.1 ∈ (eraseFrag frags k).map Prod.fst :=
              List.mem_map.mpr ⟨kf', r3 kf' hkf', rfl⟩
            rw [hfst, hkk] at this
            exact keys_eraseFrag_not_mem frags k this
          · intro hcon
            rw [r2] at hcon
            have : kf.1 ∈ rest := List.mem_of_mem_drop hcon
            rw [hkk] at this
            exact hknr this
        · have hin' : kf ∈ eraseFrag frags k := by
            simp only [eraseFrag, List.mem_filter]
            exact ⟨hkf, by simpa using hkk⟩
          exact r7 kf hin' hkfexp
    · have hstep : timeoutSweep now frags mem (k :: rest) =
          (frags, mem, k :: rest) := by
        simp [timeoutSweep, hexp]
      rw [hstep]
      have hnone : ∀ kf ∈ frags, ¬ (kf.2.rx_time + frag_timeout_secs < now) := by
        intro kf hkf
        have hget : getFrag frags kf.1 = kf.2 :=
          getFrag_eq_of_mem frags kf.1 kf.2 hnd (by
            rcases kf with ⟨a, b⟩; exact hkf)
        rcases List.mem_cons.mp (hkeys kf hkf) with h | h
        · rw [← h, hget] at hexp
          omega
        · have := hhead kf.1 h
          rw [hget] at this
          omega
      exact ⟨hmem, ⟨0, rfl⟩, fun kf h => h, hkeys, hnd, hnone,
        fun kf hkf hkfexp => absurd hkfexp (hnone kf hkf)⟩

/-- C5: on a coherent state (frag_mem = summed mem_size, unique table keys
all on the age list, the age list duplicate-free and sorted oldest-first by
`rx_time`), a firing of `ipv4::frag_timeout` removes from both the table and
the age list every entry with `rx_time + 30s < now`; after the sweep no
surviving entry has `rx_time + 30s < now`; the timer is re-armed for
`now + 30s` iff the table is non-empty; and `frag_mem` is 0 whenever the
table ends up empty. -/
theorem C5_frag_timeout (s : IpState) (now : Nat)
    (hmem : s.frag_mem = sumMem s.frags)
    (hnd : (s.frags.map Prod.fst).Nodup)
    (hkeys : ∀ kf ∈ s.frags, kf.1 ∈ s.frags_age)
    (hagend : s.frags_age.Nodup)
    (hsort : s.frags_age.Pairwise (fun a b =>
      (getFrag s.frags a).rx_time ≤ (getFrag s.frags b).rx_time)) :
    (∀ kf ∈ (s.frag_timeout now).frags,
      ¬ (kf.2.rx_time + frag_timeout_secs < now)) ∧
    (∀ kf ∈ s.frags, kf.2.rx_time + frag_timeout_secs < now →
      kf.1 ∉ (s.frag_timeout now).frags.map Prod.fst ∧
      kf.1 ∉ (s.frag_timeout now).frags_age) ∧
    ((s.frag_timeout now).timer_armed = true ↔ (s.frag_timeout now).frags ≠ []) ∧
    ((s.frag_timeout now).frags ≠ [] →
      (s.frag_timeout now).timer_expiry = now + frag_timeout_secs) ∧
    ((s.frag_timeout now).frags = [] → (s.frag_timeout now).frag_mem = 0) := by
  by_cases hempt : s.frags = []
  · have hid : s.frag_timeout now = { s with timer_armed := false } := by
      simp [IpState.frag_timeout, hempt]
    rw [hid]
    simp only [hempt]
    refine ⟨by simp, by simp, by simp [hempt], by simp [hempt], fun _ => ?_⟩
    rw [hmem, hempt]
    rfl
  · rcases timeoutSweep_spec now s.frags_age s.frags s.frag_mem
        hmem hnd hkeys hagend hsort with ⟨r1, _, _, _, _, r6, r7⟩
    by_cases hlen :
        (timeoutSweep now s.frags s.frag_mem s.frags_age).1.length ≠ 0
    · have hs' : s.frag_timeout now =
          { s with
            frags := (timeoutSweep now s.frags s.frag_mem s.frags_age).1
            frag_mem := (timeoutSweep now s.frags s.frag_mem s.frags_age).2.1
            frags_age := (timeoutSweep now s.frags s.frag_mem s.frags_age).2.2
            timer_armed := true
            timer_expiry := now + frag_timeout_secs } := by
        simp [IpState.frag_timeout, hempt, hlen]
      rw [hs']
      have hne : (timeoutSweep now s.frags s.frag_mem s.frags_age).1 ≠ [] := by
        intro he
        rw [he] at hlen
        exact hlen rfl
      refine ⟨r6, r7, ?_, fun _ => rfl, fun hc => absurd hc hne⟩
      simpa using hne
    · have hs' : s.frag_timeout now =
          { s with
            frags := (timeoutSweep now s.frags s.frag_mem s.frags_age).1
            frag_mem := 0
            frags_age := (timeoutSweep now s.frags s.frag_mem s.frags_age).2.2
            timer_armed := false } := by
        simp [IpState.frag_timeout, hempt, hlen]
      rw [hs']
      have hfe : (timeoutSweep now s.frags s.frag_mem s.frags_age).1 = [] :=
        List.length_eq_zero.mp (by omega)
      refine ⟨r6, r7, ?_, ?_, fun _ => rfl⟩
      · simp [hfe]
      · intro hc
        exact absurd hfe hc

/-- C5 witness: a state with one entry received at time 0 swept at time 40
(past the 30 s timeout) ends with an empty table, no armed timer and
`frag_mem = 0`. -/
theorem C5_frag_timeout_witness :
    (∀ kf ∈ (c5state.frag_timeout 40).frags,
      ¬ (kf.2.rx_time + frag_timeout_secs < 40)) ∧
    ((c5state.frag_timeout 40).frags = [] →
      (c5state.frag_timeout 40).frag_mem = 0) :=
  ⟨(C5_frag_timeout c5state 40 (by decide) (by decide) (by decide)
      (by decide) (by decide)).1,
   (C5_frag_timeout c5state 40 (by decide) (by decide) (by decide)
      (by decide) (by decide)).2.2.2.2⟩

/-! ## C4: the `frag_mem == Σ mem_size` accounting invariant -/

theorem getFrag_le_sumMem (l : List (FragId × Frag)) (k : FragId) :
    (getFrag l k).mem_size ≤ sumMem l := by
  induction l with
  | nil => simp [getFrag, findFrag, sumMem]
  | cons kf rest ih =>
    simp only [sumMem, List.map_cons, List.sum_cons] at ih ⊢
    by_cases he : kf.1 = k
    · have hg : getFrag (kf :: rest) k = kf.2 := by
        simp [getFrag, findFrag, List.find?_cons, he]
      rw [hg]
      omega
    · have hg : getFrag (kf :: rest) k = getFrag rest k := by
        simp [getFrag, findFrag, List.find?_cons, he]
      rw [hg]
      omega

theorem setFrag_map_id (l : List (FragId × Frag)) (k : FragId) (f : Frag)
    (h : k ∉ l.map Prod.fst) :
    l.map (fun x => if x.1 = k then (k, f) else x) = l := by
  induction l with
  | nil => rfl
  | cons kf rest ih =>
    simp only [List.map_cons, List.mem_cons, not_or] at h
    have h1 : ¬ (kf.1 = k) := fun he => h.1 he.symm
    simp only [List.map_cons, h1, if_false, ih h.2, reduceIte]

theorem getFrag_append_absent (l : List (FragId × Frag)) (k : FragId)
    (f : Frag) (h : k ∉ l.map Prod.fst) :
    getFrag (l ++ [(k, f)]) k = f := by
  induction l with
  | nil => simp [getFrag, findFrag, List.find?_cons]
  | cons kf rest ih =>
    simp only [List.map_cons, List.mem_cons, not_or] at h
    have h1 : ¬ (kf.1 = k) := fun he => h.1 he.symm
    simp only [List.cons_append, getFrag, findFrag, List.find?_cons,
      decide_eq_false h1] at ih ⊢
    exact ih h.2

theorem setFrag_present_spec (l : List (FragId × Frag)) (k : FragId)
    (f : Frag) (hnd : (l.map Prod.fst).Nodup) (hk : k ∈ l.map Prod.fst) :
    sumMem (l.map (fun x => if x.1 = k then (k, f) else x)) +
        (getFrag l k).mem_size = sumMem l + f.mem_size ∧
    (l.map (fun x => if x.1 = k then (k, f) else x)).map Prod.fst =
      l.map Prod.fst ∧
    getFrag (l.map (fun x => if x.1 = k then (k, f) else x)) k = f := by
  induction l with
  | nil => simp at hk
  | cons kf rest ih =>
    simp only [List.map_cons, List.nodup_cons] at hnd
    by_cases he : kf.1 = k
    · have hrest : k ∉ rest.map Prod.fst := he ▸ hnd.1
      have hgets : getFrag (kf :: rest) k = kf.2 := by
        simp [getFrag, findFrag, List.find?_cons, he]
      refine ⟨?_, ?_, ?_⟩
      · rw [hgets]
        simp only [List.map_cons, he, if_true, reduceIte,
          setFrag_map_id rest k f hrest]
        simp only [sumMem, List.map_cons, List.sum_cons]
        omega
      · simp only [List.map_cons, he, if_true, reduceIte,
          setFrag_map_id rest k f hrest]
      · simp only [List.map_cons, he, if_true, reduceIte]
        simp [getFrag, findFrag, List.find?_cons]
    · have hk' : k ∈ rest.map Prod.fst := by
        rcases List.mem_map.mp hk with ⟨x, hx, hfst⟩
        rcases List.mem_cons.mp hx with hx1 | hx2
        · exact absurd (hx1 ▸ hfst) he
        · exact List.mem_map.mpr ⟨x, hx2, hfst⟩
      rcases ih hnd.2 hk' with ⟨i1, i2, i3⟩
      have hgets : getFrag (kf :: rest) k = getFrag rest k := by
        simp [getFrag, findFrag, List.find?_cons, he]
      refine ⟨?_, ?_, ?_⟩
      · rw [hgets]
        simp only [List.map_cons, he, if_false, reduceIte]
        simp only [sumMem, List.map_cons, List.sum_cons] at i1 ⊢
        omega
      · simp only [List.map_cons, he, if_false, reduceIte, i2]
      · simp only [List.map_cons, he, if_false, reduceIte]
        simp only [getFrag, findFrag, List.find?_cons, decide_eq_false he] at i3 ⊢
        exact i3

theorem mem_keys_iff_find (l : List (FragId × Frag)) (k : FragId) :
    (l.find? (fun x => x.1 = k)).isSome = true ↔ k ∈ l.map Prod.fst := by
  rw [List.find?_isSome]
  constructor
  · rintro ⟨x, hx, hp⟩
    exact List.mem_map.mpr ⟨x, hx, by simpa using hp⟩
  · intro h
    rcases List.mem_map.mp h with ⟨x, hx, hfst⟩
    exact ⟨x, hx, by simpa using hfst⟩

theorem setFrag_spec (l : List (FragId × Frag)) (k : FragId) (f : Frag)
    (hnd : (l.map Prod.fst).Nodup) :
    sumMem (setFrag l k f) + (getFrag l k).mem_size = sumMem l + f.mem_size ∧
    ((setFrag l k f).map Prod.fst).Nodup ∧
    getFrag (setFrag l k f) k = f := by
  by_cases hp : (l.find? (fun x => x.1 = k)).isSome = true
  · have hk : k ∈ l.map Prod.fst := (mem_keys_iff_find l k).mp hp
    rcases setFrag_present_spec l k f hnd hk with ⟨s1, s2, s3⟩
    have hset : setFrag l k f =
        l.map (fun x => if x.1 = k then (k, f) else x) := by
      simp [setFrag, hp]
    rw [hset]
    exact ⟨s1, s2 ▸ hnd, s3⟩
  · have hk : k ∉ l.map Prod.fst := fun hc => hp ((mem_keys_iff_find l k).mpr hc)
    have hgd : getFrag l k = {} := getFrag_of_not_mem l k hk
    have hset : setFrag l k f = l ++ [(k, f)] := by
      simp only [setFrag]
      rw [if_neg hp]
    rw [hset, hgd]
    refine ⟨?_, ?_, getFrag_append_absent l k f hk⟩
    · simp [sumMem]
    · simp only [List.map_append, List.map_cons, List.map_nil]
      rw [List.nodup_append]
      refine ⟨hnd, List.nodup_singleton k, ?_⟩
      intro a ha hb
      rw [List.mem_singleton] at hb
      subst hb
      exact hk ha

theorem limitLoop_mem_inv :
    ∀ (age : List FragId) (frags : List (FragId × Frag)) (mem drop : Nat),
      mem = sumMem frags → (frags.map Prod.fst).Nodup →
      (limitLoop frags mem drop age).2.1 =
          sumMem (limitLoop frags mem drop age).1 ∧
      ((limitLoop frags mem drop age).1.map Prod.fst).Nodup := by
  intro age
  induction age with
  | nil =>
    intro frags mem drop hmem hnd
    exact ⟨by simpa [limitLoop] using hmem, by simpa [limitLoop] using hnd⟩
  | cons k rest ih =>
    intro frags mem drop hmem hnd
    by_cases hd : drop = 0
    · subst hd
      exact ⟨by simpa [limitLoop] using hmem, by simpa [limitLoop] using hnd⟩
    · have hstep : limitLoop frags mem drop (k :: rest) =
          limitLoop (eraseFrag frags k) (mem - (getFrag frags k).mem_size)
            (drop - min drop (getFrag frags k).mem_size) rest := by
        simp [limitLoop, hd]
      rcases sumMem_erase frags k hnd with ⟨hle, herase⟩
      rw [hstep]
      exact ih (eraseFrag frags k) _ _ (by omega)
        ((eraseFrag_keys_sublist frags k).nodup hnd)

theorem frag_limit_mem_mem_inv (s : IpState)
    (hmem : s.frag_mem = sumMem s.frags)
    (hnd : (s.frags.map Prod.fst).Nodup) :
    s.frag_limit_mem.frag_mem = sumMem s.frag_limit_mem.frags ∧
    (s.frag_limit_mem.frags.map Prod.fst).Nodup := by
  unfold IpState.frag_limit_mem
  by_cases hh : s.frag_mem ≤ frag_high_thresh
  · rw [if_pos hh]; exact ⟨hmem, hnd⟩
  · rw [if_neg hh]
    exact limitLoop_mem_inv s.frags_age s.frags s.frag_mem _ hmem hnd

theorem timeoutSweep_mem_inv (now : Nat) :
    ∀ (age : List FragId) (frags : List (FragId × Frag)) (mem : Nat),
      mem = sumMem frags → (frags.map Prod.fst).Nodup →
      (timeoutSweep now frags mem age).2.1 =
          sumMem (timeoutSweep now frags mem age).1 ∧
      ((timeoutSweep now frags mem age).1.map Prod.fst).Nodup := by
  intro age
  induction age with
  | nil =>
    intro frags mem hmem hnd
    exact ⟨by simpa [timeoutSweep] using hmem, by simpa [timeoutSweep] using hnd⟩
  | cons k rest ih =>
    intro frags mem hmem hnd
    by_cases hexp : now > (getFrag frags k).rx_time + frag_timeout_secs
    · have hstep : timeoutSweep now frags mem (k :: rest) =
          timeoutSweep now (eraseFrag frags k)
            (mem - (getFrag frags k).mem_size) rest := by
        simp [timeoutSweep, hexp]
      rcases sumMem_erase frags k hnd with ⟨hle, herase⟩
      rw [hstep]
      exact ih (eraseFrag frags k) _ (by omega)
        ((eraseFrag_keys_sublist frags k).nodup hnd)
    · have hstep : timeoutSweep now frags mem (k :: rest) =
          (frags, mem, k :: rest) := by
        simp [timeoutSweep, hexp]
      rw [hstep]
      exact ⟨hmem, hnd⟩

theorem frag_timeout_mem_inv (s : IpState) (now : Nat)
    (hmem : s.frag_mem = sumMem s.frags)
    (hnd : (s.frags.map Prod.fst).Nodup) :
    (s.frag_timeout now).frag_mem = sumMem (s.frag_timeout now).frags ∧
    ((s.frag_timeout now).frags.map Prod.fst).Nodup := by
  unfold IpState.frag_timeout
  by_cases he : s.frags = []
  · rw [if_pos he]
    exact ⟨hmem, hnd⟩
  · rw [if_neg he]
    rcases timeoutSweep_mem_inv now s.frags_age s.frags s.frag_mem hmem hnd with
      ⟨h1, h2⟩
    by_cases hl : (timeoutSweep now s.frags s.frag_mem s.frags_age).1.length ≠ 0
    · rw [if_pos hl]
      exact ⟨h1, h2⟩
    · rw [if_neg hl]
      have hfe : (timeoutSweep now s.frags s.frag_mem s.frags_age).1 = [] :=
        List.length_eq_zero.mp (by omega)
      refine ⟨?_, h2⟩
      rw [hfe]
      rfl

theorem rxTail_mem_inv (s2 : IpState) (k : FragId) (f0m : Nat) (f1 : Frag)
    (hmem2 : s2.frag_mem = sumMem s2.frags)
    (hnd2 : (s2.frags.map Prod.fst).Nodup)
    (hf0 : f0m = (getFrag s2.frags k).mem_size) :
    (s2.frag_mem + f1.mem_size - f0m = sumMem (setFrag s2.frags k f1) ∧
      ((setFrag s2.frags k f1).map Prod.fst).Nodup) ∧
    (s2.frag_mem + f1.mem_size - f0m - f1.mem_size =
        sumMem (eraseFrag (setFrag s2.frags k f1) k) ∧
      ((eraseFrag (setFrag s2.frags k f1) k).map Prod.fst).Nodup) := by
  rcases setFrag_spec s2.frags k f1 hnd2 with ⟨sf1, sf2, sf3⟩
  have hgle : (getFrag s2.frags k).mem_size ≤ sumMem s2.frags :=
    getFrag_le_sumMem s2.frags k
  rcases sumMem_erase (setFrag s2.frags k f1) k sf2 with ⟨hle4, her4⟩
  rw [sf3] at hle4 her4
  refine ⟨⟨by omega, sf2⟩, ?_, (eraseFrag_keys_sublist _ k).nodup sf2⟩
  rw [her4]
  omega

theorem rxReassemble_mem_inv (env : RxEnv) (now : Nat) (s : IpState)
    (h : IpHdr) (offset : Nat) (p : List Nat) (eth_src eth_dst : List Nat)
    (hmem : s.frag_mem = sumMem s.frags)
    (hnd : (s.frags.map Prod.fst).Nodup) :
    (rxReassemble env now s h offset p eth_src eth_dst).1.frag_mem =
        sumMem (rxReassemble env now s h offset p eth_src eth_dst).1.frags ∧
    ((rxReassemble env now s h offset p eth_src eth_dst).1.frags.map
      Prod.fst).Nodup := by
  rcases frag_limit_mem_mem_inv s hmem hnd with ⟨hmem1, hnd1⟩
  revert hmem1 hnd1
  unfold rxReassemble
  generalize s.frag_limit_mem = s1
  intro hmem1 hnd1
  dsimp only []
  by_cases hmf : h.mf = false
  · simp only [if_pos hmf]
    by_cases hn :
        (getFrag s1.frags ⟨h.src_ip, h.dst_ip, h.id, h.ip_proto⟩).mem_size = 0
    · simp only [if_pos hn]
      split
      · exact (rxTail_mem_inv s1 _ _ _ hmem1 hnd1 rfl).2
      · split <;> exact (rxTail_mem_inv s1 _ _ _ hmem1 hnd1 rfl).1
    · simp only [if_neg hn]
      split
      · exact (rxTail_mem_inv s1 _ _ _ hmem1 hnd1 rfl).2
      · split <;> exact (rxTail_mem_inv s1 _ _ _ hmem1 hnd1 rfl).1
  · simp only [if_neg hmf]
    by_cases hn :
        (getFrag s1.frags ⟨h.src_ip, h.dst_ip, h.id, h.ip_proto⟩).mem_size = 0
    · simp only [if_pos hn]
      split
      · exact (rxTail_mem_inv s1 _ _ _ hmem1 hnd1 rfl).2
      · split <;> exact (rxTail_mem_inv s1 _ _ _ hmem1 hnd1 rfl).1
    · simp only [if_neg hn]
      split
      · exact (rxTail_mem_inv s1 _ _ _ hmem1 hnd1 rfl).2
      · split <;> exact (rxTail_mem_inv s1 _ _ _ hmem1 hnd1 rfl).1

theorem handle_received_packet_mem_inv (env : RxEnv) (now : Nat)
    (s : IpState) (p : List Nat) (reassembled : Bool)
    (eth_src eth_dst : List Nat)
    (hmem : s.frag_mem = sumMem s.frags)
    (hnd : (s.frags.map Prod.fst).Nodup) :
    (handle_received_packet env now s p reassembled eth_src eth_dst).1.frag_mem
        = sumMem
        (handle_received_packet env now s p reassembled eth_src eth_dst).1.frags ∧
    ((handle_received_packet env now s p reassembled
      eth_src eth_dst).1.frags.map Prod.fst).Nodup := by
  unfold handle_received_packet
  dsimp only []
  split
  · exact ⟨hmem, hnd⟩
  · split
    · exact ⟨hmem, hnd⟩
    · split
      · exact ⟨hmem, hnd⟩
      · split
        · exact ⟨hmem, hnd⟩
        · split
          · exact ⟨hmem, hnd⟩
          · split
            · exact rxReassemble_mem_inv _ _ _ _ _ _ _ _ hmem hnd
            · split
              · exact ⟨hmem, hnd⟩
              · exact ⟨hmem, hnd⟩

/-- C4: over every sequence of operations — packet receptions (fragment
insertions and reassembly completions, each of which also runs the
`frag_limit_mem` eviction), timer fires, and bare evictions — starting from
a state satisfying `frag_mem = Σ entry.mem_size` with unique table keys,
the invariant `frag_mem = Σ entry.mem_size` (and key uniqueness) holds after
every step. -/
theorem C4_frag_mem_invariant (ops : List IpOp) :
    ∀ (s : IpState),
      s.frag_mem = sumMem s.frags →
      (s.frags.map Prod.fst).Nodup →
      (ops.foldl applyOp s).frag_mem = sumMem (ops.foldl applyOp s).frags ∧
      ((ops.foldl applyOp s).frags.map Prod.fst).Nodup := by
  induction ops with
  | nil => intro s hmem hnd; exact ⟨hmem, hnd⟩
  | cons op rest ih =>
    intro s hmem hnd
    have hstep : (applyOp s op).frag_mem = sumMem (applyOp s op).frags ∧
        ((applyOp s op).frags.map Prod.fst).Nodup := by
      rcases op with ⟨env, now, p, reassembled, es, ed⟩ | now | _
      · exact handle_received_packet_mem_inv env now s p reassembled es ed
          hmem hnd
      · exact frag_timeout_mem_inv s now hmem hnd
      · exact frag_limit_mem_mem_inv s hmem hnd
    exact ih (applyOp s op) hstep.1 hstep.2

/-- C4 witness: receiving the two fragments of the C2 scenario (insertion,
then completion) followed by a timer fire and an eviction pass keeps
`frag_mem` equal to the summed `mem_size` of the (here empty) table. -/
theorem C4_frag_mem_invariant_witness :
    (([IpOp.rx c2env 5 c2pkt1 false [0, 0, 0, 0, 0, 0] [0, 0, 0, 0, 0, 0],
       IpOp.rx c2env 6 c2pkt2 false [0, 0, 0, 0, 0, 0] [0, 0, 0, 0, 0, 0],
       IpOp.timeout 40, IpOp.limit_mem].foldl applyOp {}).frag_mem =
      sumMem (([IpOp.rx c2env 5 c2pkt1 false [0, 0, 0, 0, 0, 0]
          [0, 0, 0, 0, 0, 0],
        IpOp.rx c2env 6 c2pkt2 false [0, 0, 0, 0, 0, 0] [0, 0, 0, 0, 0, 0],
        IpOp.timeout 40, IpOp.limit_mem].foldl applyOp {}).frags)) :=
  (C4_frag_mem_invariant _ {} (by decide) (by decide)).1

/-! ## C8: per-flow core steering -/

/-- C8: `ipv4::handle_on_cpu` steers deterministically by flow.  (a) Two
atomic datagrams (MF = 0, offset 0) of a registered protocol that agree on
`(src_ip, dst_ip)` and on the two 16-bit L4 port fields map to the same
core — the Toeplitz hash reads nothing else.  (b) Two fragments that agree
on the fragment key `(src_ip, dst_ip, id, protocol)` map to the same core —
the fragment-key hash reads nothing else.  (c) With a registered protocol
the chosen core is always a valid core number (reduced modulo the core
count). -/
theorem C8_flow_steering (env : RxEnv) (p1 p2 : List Nat) (off1 off2 : Nat) :
    (env.registered (parseIpHdr (List.drop off1 p1)).ip_proto = true →
     (parseIpHdr (List.drop off1 p1)).ip_proto =
        (parseIpHdr (List.drop off2 p2)).ip_proto →
     (parseIpHdr (List.drop off1 p1)).mf = false →
     (parseIpHdr (List.drop off1 p1)).offset = 0 →
     (parseIpHdr (List.drop off2 p2)).mf = false →
     (parseIpHdr (List.drop off2 p2)).offset = 0 →
     (parseIpHdr (List.drop off1 p1)).src_ip =
        (parseIpHdr (List.drop off2 p2)).src_ip →
     (parseIpHdr (List.drop off1 p1)).dst_ip =
        (parseIpHdr (List.drop off2 p2)).dst_ip →
     be16 p1 (off1 + 20) = be16 p2 (off2 + 20) →
     be16 p1 (off1 + 20 + 2) = be16 p2 (off2 + 20 + 2) →
     handle_on_cpu env p1 off1 = handle_on_cpu env p2 off2) ∧
    (env.registered (parseIpHdr (List.drop off1 p1)).ip_proto = true →
     (parseIpHdr (List.drop off1 p1)).ip_proto =
        (parseIpHdr (List.drop off2 p2)).ip_proto →
     ((parseIpHdr (List.drop off1 p1)).mf = true ∨
        (parseIpHdr (List.drop off1 p1)).offset ≠ 0) →
     ((parseIpHdr (List.drop off2 p2)).mf = true ∨
        (parseIpHdr (List.drop off2 p2)).offset ≠ 0) →
     (parseIpHdr (List.drop off1 p1)).src_ip =
        (parseIpHdr (List.drop off2 p2)).src_ip →
     (parseIpHdr (List.drop off1 p1)).dst_ip =
        (parseIpHdr (List.drop off2 p2)).dst_ip →
     (parseIpHdr (List.drop off1 p1)).id = (parseIpHdr (List.drop off2 p2)).id →
     handle_on_cpu env p1 off1 = handle_on_cpu env p2 off2) ∧
    (env.registered (parseIpHdr (List.drop off1 p1)).ip_proto = true →
     0 < env.smp_count →
     handle_on_cpu env p1 off1 < env.smp_count) := by
  refine ⟨?_, ?_, ?_⟩
  · intro hreg hpr hmf1 hof1 hmf2 hof2 hsrc hdst hport1 hport2
    unfold handle_on_cpu
    dsimp only []
    rw [← hpr]
    have hnreg : ¬ ((!env.registered
        (parseIpHdr (List.drop off1 p1)).ip_proto) = true) := by
      simp [hreg]
    have hc1 : (decide ((parseIpHdr (List.drop off1 p1)).mf = false) &&
        decide ((parseIpHdr (List.drop off1 p1)).offset = 0)) = true := by
      simp [hmf1, hof1]
    have hc2 : (decide ((parseIpHdr (List.drop off2 p2)).mf = false) &&
        decide ((parseIpHdr (List.drop off2 p2)).offset = 0)) = true := by
      simp [hmf2, hof2]
    rw [if_neg hnreg, if_neg hnreg, if_pos hc1, if_pos hc2]
    unfold l4_forward
    dsimp only []
    rw [hsrc, hdst, hport1, hport2]
  · intro hreg hpr hfr1 hfr2 hsrc hdst hid
    unfold handle_on_cpu
    dsimp only []
    rw [← hpr]
    have hnreg : ¬ ((!env.registered
        (parseIpHdr (List.drop off1 p1)).ip_proto) = true) := by
      simp [hreg]
    have hc1 : ¬ ((decide ((parseIpHdr (List.drop off1 p1)).mf = false) &&
        decide ((parseIpHdr (List.drop off1 p1)).offset = 0)) = true) := by
      rcases hfr1 with h | h <;> simp [h]
    have hc2 : ¬ ((decide ((parseIpHdr (List.drop off2 p2)).mf = false) &&
        decide ((parseIpHdr (List.drop off2 p2)).offset = 0)) = true) := by
      rcases hfr2 with h | h <;> simp [h]
    rw [if_neg hnreg, if_neg hnreg, if_neg hc1, if_neg hc2]
    rw [hsrc, hdst, hid, hpr]
  · intro hreg hsmp
    unfold handle_on_cpu
    dsimp only []
    have hnreg : ¬ ((!env.registered
        (parseIpHdr (List.drop off1 p1)).ip_proto) = true) := by
      simp [hreg]
    rw [if_neg hnreg]
    split
    · exact Nat.mod_lt _ hsmp
    · exact Nat.mod_lt _ hsmp

/-- C8 witness: the two atomic TCP datagrams `c8pkt1`/`c8pkt2` of the same
flow (differing id, TTL) land on the same core of a 4-core system. -/
theorem C8_flow_steering_witness :
    handle_on_cpu { smp_count := 4, registered := fun pr => pr == 6 } c8pkt1 0 =
      handle_on_cpu { smp_count := 4, registered := fun pr => pr == 6 } c8pkt2 0 :=
  (C8_flow_steering { smp_count := 4, registered := fun pr => pr == 6 }
      c8pkt1 c8pkt2 0 0).1
    (by decide) (by decide) (by decide) (by decide) (by decide) (by decide)
    (by decide) (by decide) (by decide) (by decide)

/-! ## C1: reassembly round trip — range-merge lemmas -/

theorem covers_cons (r : Nat × List Nat) (l : List (Nat × List Nat)) (n : Nat) :
    covers (r :: l) n ↔ (r.1 ≤ n ∧ n < r.1 + r.2.length) ∨ covers l n := by
  constructor
  · rintro ⟨x, hx, hc⟩
    rcases List.mem_cons.mp hx with h | h
    · left; rw [h] at hc; exact hc
    · right; exact ⟨x, h, hc⟩
  · rintro (h | ⟨x, hx, hc⟩)
    · exact ⟨r, by simp, h⟩
    · exact ⟨x, by simp [hx], hc⟩

theorem covers_append (A B : List (Nat × List Nat)) (n : Nat) :
    covers (A ++ B) n ↔ covers A n ∨ covers B n := by
  constructor
  · rintro ⟨x, hx, hc⟩
    rcases List.mem_append.mp hx with h | h
    · exact Or.inl ⟨x, h, hc⟩
    · exact Or.inr ⟨x, h, hc⟩
  · rintro (⟨x, hx, hc⟩ | ⟨x, hx, hc⟩)
    · exact ⟨x, List.mem_append.mpr (Or.inl hx), hc⟩
    · exact ⟨x, List.mem_append.mpr (Or.inr hx), hc⟩

theorem sumLens_append (A B : List (Nat × List Nat)) :
    sumLens (A ++ B) = sumLens A + sumLens B := by
  simp [sumLens]

theorem mem_insertRange (off : Nat) (p : List Nat) :
    ∀ (m : List (Nat × List Nat)) (r : Nat × List Nat),
      r ∈ insertRange off p m ↔ r = (off, p) ∨ r ∈ m := by
  intro m
  induction m with
  | nil => intro r; simp [insertRange]
  | cons q rest ih =>
    intro r
    simp only [insertRange]
    split
    · simp [List.mem_cons]
    · simp only [List.mem_cons, ih r]
      tauto

theorem sumLens_insertRange (off : Nat) (p : List Nat) :
    ∀ m, sumLens (insertRange off p m) = p.length + sumLens m := by
  intro m
  induction m with
  | nil => simp [insertRange, sumLens]
  | cons q rest ih =>
    simp only [insertRange]
    split
    · simp [sumLens]
    · simp only [sumLens, List.map_cons, List.sum_cons] at ih ⊢
      omega

theorem covers_insertRange (off : Nat) (p : List Nat)
    (m : List (Nat × List Nat)) (n : Nat) :
    covers (insertRange off p m) n ↔
      (off ≤ n ∧ n < off + p.length) ∨ covers m n := by
  constructor
  · rintro ⟨x, hx, hc⟩
    rcases (mem_insertRange off p m x).mp hx with h | h
    · left; rw [h] at hc; exact hc
    · right; exact ⟨x, h, hc⟩
  · rintro (h | ⟨x, hx, hc⟩)
    · exact ⟨(off, p), (mem_insertRange off p m _).mpr (Or.inl rfl), h⟩
    · exact ⟨x, (mem_insertRange off p m x).mpr (Or.inr hx), hc⟩

theorem insertRange_head (off : Nat) (p : List Nat)
    (m : List (Nat × List Nat)) :
    (insertRange off p m).head? = some (off, p) ∨
      ∃ q rest, m = q :: rest ∧ q.1 < off ∧
        (insertRange off p m).head? = some q := by
  rcases m with _ | ⟨q, rest⟩
  · left; rfl
  · by_cases hle : off ≤ q.1
    · left
      simp [insertRange, hle]
    · right
      exact ⟨q, rest, rfl, by omega, by simp [insertRange, hle]⟩

theorem insertRange_ne_nil (off : Nat) (p : List Nat)
    (m : List (Nat × List Nat)) : insertRange off p m ≠ [] := by
  rcases m with _ | ⟨q, rest⟩
  · simp [insertRange]
  · simp only [insertRange]
    split <;> simp

theorem rangesSorted_insertRange (off : Nat) (p : List Nat) :
    ∀ m, rangesSorted m → (∀ r ∈ m, r.2 ≠ []) →
      (∀ r ∈ m, rangeDisj (off, p) r) →
      rangesSorted (insertRange off p m) := by
  intro m
  induction m with
  | nil => intro _ _ _; simp [insertRange, rangesSorted]
  | cons q rest ih =>
    intro hs hne hdisj
    rcases List.chain'_cons'.mp hs with ⟨hq, hrest⟩
    simp only [insertRange]
    by_cases hle : off ≤ q.1
    · rw [if_pos hle]
      refine List.chain'_cons'.mpr ⟨?_, hs⟩
      intro y hy
      simp only [List.head?_cons, Option.mem_def, Option.some_inj] at hy
      subst hy
      rcases hdisj q (by simp) with h | h
      · exact h
      · have hqe : q.2 ≠ [] := hne q (by simp)
        have : 0 < q.2.length := List.length_pos.mpr hqe
        omega
    · rw [if_neg hle]
      refine List.chain'_cons'.mpr ⟨?_, ?_⟩
      · intro y hy
        rcases insertRange_head off p rest with h | ⟨q2, rest2, hm, hlt, h⟩
        · rw [h] at hy
          simp only [Option.mem_def, Option.some_inj] at hy
          subst hy
          rcases hdisj q (by simp) with hd | hd
          · omega
          · exact hd
        · rw [h] at hy
          simp only [Option.mem_def, Option.some_inj] at hy
          subst hy
          have := hq q2 (by rw [hm]; rfl)
          exact this
      · exact ih hrest (fun r hr => hne r (by simp [hr]))
          (fun r hr => hdisj r (by simp [hr]))

theorem slicesOf_insertRange (P : List Nat) (off : Nat) (p : List Nat)
    (m : List (Nat × List Nat)) (hm : slicesOf P m)
    (hp : p = (P.drop off).take p.length) (hne : p ≠ []) :
    slicesOf P (insertRange off p m) := by
  intro r hr
  rcases (mem_insertRange off p m r).mp hr with h | h
  · rw [h]
    exact ⟨hp, hne⟩
  · exact hm r h

theorem slice_concat (P p1 p2 : List Nat) (o1 : Nat)
    (h1 : p1 = (P.drop o1).take p1.length)
    (h2 : p2 = (P.drop (o1 + p1.length)).take p2.length) :
    p1 ++ p2 = (P.drop o1).take ((p1 ++ p2).length) := by
  rw [List.length_append, List.take_add, ← h1]
  have h3 : (P.drop o1).drop p1.length = P.drop (o1 + p1.length) := by
    rw [List.drop_drop, Nat.add_comm]
  rw [h3, ← h2]

theorem coalesceInto_spec (P : List Nat) :
    ∀ (rest : List (Nat × List Nat)) (o1 : Nat) (p1 : List Nat),
      rangesSorted ((o1, p1) :: rest) →
      slicesOf P ((o1, p1) :: rest) →
      rangesSorted (coalesceInto o1 p1 rest) ∧
      slicesOf P (coalesceInto o1 p1 rest) ∧
      sumLens (coalesceInto o1 p1 rest) = p1.length + sumLens rest ∧
      (∀ n, covers (coalesceInto o1 p1 rest) n ↔ covers ((o1, p1) :: rest) n) ∧
      (∃ q t, coalesceInto o1 p1 rest = (o1, q) :: t) := by
  intro rest
  induction rest with
  | nil =>
    intro o1 p1 hs hsl
    refine ⟨by simpa [coalesceInto] using hs, by simpa [coalesceInto] using hsl,
      by simp [coalesceInto, sumLens], fun n => by simp [coalesceInto],
      p1, [], rfl⟩
  | cons r2 rest ih =>
    intro o1 p1 hs hsl
    rcases r2 with ⟨o2, p2⟩
    rcases List.chain'_cons'.mp hs with ⟨hq, hrest⟩
    have hrel : o1 + p1.length ≤ o2 := hq (o2, p2) rfl
    rcases List.chain'_cons'.mp hrest with ⟨hq2, hrest2⟩
    simp only [coalesceInto]
    by_cases hm : o1 + p1.length = o2
    · rw [if_pos hm]
      have hsl1 := (hsl (o1, p1) (by simp)).1
      have hsl2 := (hsl (o2, p2) (by simp)).1
      have hne1 := (hsl (o1, p1) (by simp)).2
      have hcat : p1 ++ p2 = (P.drop o1).take ((p1 ++ p2).length) :=
        slice_concat P p1 p2 o1 hsl1 (by rw [hm]; exact hsl2)
      have hs' : rangesSorted ((o1, p1 ++ p2) :: rest) := by
        refine List.chain'_cons'.mpr ⟨?_, hrest2⟩
        intro y hy
        have h5 := hq2 y hy
        dsimp only [] at h5
        simp only [List.length_append]
        omega
      have hsl' : slicesOf P ((o1, p1 ++ p2) :: rest) := by
        intro r hr
        rcases List.mem_cons.mp hr with h | h
        · rw [h]
          exact ⟨hcat, by simp [hne1]⟩
        · exact hsl r (by simp [h])
      rcases ih o1 (p1 ++ p2) hs' hsl' with ⟨c1, c2, c3, c4, c5⟩
      have hsum : sumLens (coalesceInto o1 (p1 ++ p2) rest) =
          p1.length + sumLens ((o2, p2) :: rest) := by
        simp only [List.length_append] at c3
        simp only [sumLens, List.map_cons, List.sum_cons] at c3 ⊢
        omega
      refine ⟨c1, c2, hsum, fun n => ?_, c5⟩
      rw [c4 n, covers_cons, covers_cons, covers_cons]
      simp only [List.length_append]
      constructor
      · rintro (h | h)
        · by_cases hn : n < o1 + p1.length
          · left; omega
          · right; left; omega
        · right; right; exact h
      · rintro (h | h | h)
        · left; omega
        · left; omega
        · right; exact h
    · rw [if_neg hm]
      rcases ih o2 p2 hrest (fun r hr => hsl r (by simp [hr])) with
        ⟨c1, c2, c3, c4, c5⟩
      refine ⟨?_, ?_, ?_, ?_, p1, coalesceInto o2 p2 rest, rfl⟩
      · refine List.chain'_cons'.mpr ⟨?_, c1⟩
        intro y hy
        rcases c5 with ⟨q, t, hqt⟩
        rw [hqt] at hy
        simp only [List.head?_cons, Option.mem_def, Option.some_inj] at hy
        subst hy
        exact hrel
      · intro r hr
        rcases List.mem_cons.mp hr with h | h
        · rw [h]
          exact hsl (o1, p1) (by simp)
        · exact c2 r h
      · simp only [sumLens, List.map_cons, List.sum_cons] at c3 ⊢
        omega
      · intro n
        simp only [covers_cons, c4 n]

theorem mergeRange_spec (P : List Nat) (m : List (Nat × List Nat))
    (off : Nat) (p : List Nat)
    (hs : rangesSorted m) (hsl : slicesOf P m)
    (hp : p = (P.drop off).take p.length) (hne : p ≠ [])
    (hdisj : ∀ r ∈ m, rangeDisj (off, p) r) :
    rangesSorted (mergeRange m off p) ∧
    slicesOf P (mergeRange m off p) ∧
    sumLens (mergeRange m off p) = p.length + sumLens m ∧
    (∀ n, covers (mergeRange m off p) n ↔
      (off ≤ n ∧ n < off + p.length) ∨ covers m n) := by
  have hins_s : rangesSorted (insertRange off p m) :=
    rangesSorted_insertRange off p m hs (fun r hr => (hsl r hr).2) hdisj
  have hins_sl : slicesOf P (insertRange off p m) :=
    slicesOf_insertRange P off p m hsl hp hne
  have hins_sum : sumLens (insertRange off p m) = p.length + sumLens m :=
    sumLens_insertRange off p m
  have hins_cov := covers_insertRange off p m
  rcases hhead : insertRange off p m with _ | ⟨r, t⟩
  · exact absurd hhead (insertRange_ne_nil off p m)
  · have hcoal : mergeRange m off p = coalesceInto r.1 r.2 t := by
      simp only [mergeRange, hhead, coalesce]
    rw [hhead] at hins_s hins_sl hins_sum
    rcases coalesceInto_spec P t r.1 r.2 hins_s hins_sl with ⟨c1, c2, c3, c4, _⟩
    rw [hcoal]
    refine ⟨c1, c2, ?_, fun n => ?_⟩
    · simp only [sumLens, List.map_cons, List.sum_cons] at hins_sum c3 ⊢
      omega
    · rw [c4 n]
      have := hins_cov n
      rw [hhead] at this
      rw [this]

theorem rangeDisj_symm {a b : Nat × List Nat} (h : rangeDisj a b) :
    rangeDisj b a := h.symm

theorem rangeDisj_of_not_covered (x r : Nat × List Nat)
    (hx : x.2 ≠ []) (hr : r.2 ≠ [])
    (h : ∀ n, x.1 ≤ n → n < x.1 + x.2.length →
      ¬ (r.1 ≤ n ∧ n < r.1 + r.2.length)) :
    rangeDisj x r := by
  have hx1 : 0 < x.2.length := List.length_pos.mpr hx
  have hr1 : 0 < r.2.length := List.length_pos.mpr hr
  unfold rangeDisj
  by_contra hc
  push_neg at hc
  exact h (max x.1 r.1) (le_max_left _ _) (by omega) ⟨le_max_right _ _, by omega⟩

theorem splitChunks_mem (P : List Nat) :
    ∀ (ls : List Nat) (off : Nat), off + ls.sum ≤ P.length →
      (∀ n ∈ ls, 0 < n) →
      ∀ r ∈ splitChunks P off ls,
        r.2 = (P.drop r.1).take r.2.length ∧ r.2 ≠ [] ∧ off ≤ r.1 := by
  intro ls
  induction ls with
  | nil => intro off _ _ r hr; simp [splitChunks] at hr
  | cons n ls ih =>
    intro off hsum hpos r hr
    have hn : 0 < n := hpos n (by simp)
    have hlen : ((P.drop off).take n).length = n := by
      rw [List.length_take, List.length_drop]
      simp only [List.sum_cons] at hsum
      omega
    rcases List.mem_cons.mp hr with h | h
    · subst h
      refine ⟨?_, ?_, le_rfl⟩
      · simp only [hlen]
      · intro hc
        dsimp only [] at hc
        rw [hc] at hlen
        simp at hlen
        omega
    · have := ih (off + n) (by simp only [List.sum_cons] at hsum; omega)
        (fun m hm => hpos m (by simp [hm])) r h
      exact ⟨this.1, this.2.1, by omega⟩

theorem splitChunks_pairwise (P : List Nat) :
    ∀ (ls : List Nat) (off : Nat), off + ls.sum ≤ P.length →
      (∀ n ∈ ls, 0 < n) →
      List.Pairwise rangeDisj (splitChunks P off ls) := by
  intro ls
  induction ls with
  | nil => intro off _ _; simp [splitChunks]
  | cons n ls ih =>
    intro off hsum hpos
    simp only [splitChunks]
    rw [List.pairwise_cons]
    have hlen : ((P.drop off).take n).length = n := by
      rw [List.length_take, List.length_drop]
      simp only [List.sum_cons] at hsum
      omega
    constructor
    · intro r hr
      have := splitChunks_mem P ls (off + n)
        (by simp only [List.sum_cons] at hsum; omega)
        (fun m hm => hpos m (by simp [hm])) r hr
      left
      simp only [hlen]
      omega
    · exact ih (off + n) (by simp only [List.sum_cons] at hsum; omega)
        (fun m hm => hpos m (by simp [hm]))

theorem splitChunks_sum (P : List Nat) :
    ∀ (ls : List Nat) (off : Nat), off + ls.sum ≤ P.length →
      sumLens (splitChunks P off ls) = ls.sum := by
  intro ls
  induction ls with
  | nil => intro off _; simp [splitChunks, sumLens]
  | cons n ls ih =>
    intro off hsum
    have hlen : ((P.drop off).take n).length = n := by
      rw [List.length_take, List.length_drop]
      simp only [List.sum_cons] at hsum
      omega
    simp only [splitChunks, sumLens, List.map_cons, List.sum_cons,
      List.sum_nil] at ih ⊢
    rw [hlen, ih (off + n) (by simp only [List.sum_cons] at hsum; omega)]

theorem splitChunks_join (P : List Nat) :
    ∀ (ls : List Nat) (off : Nat), off + ls.sum ≤ P.length →
      ((splitChunks P off ls).map Prod.snd).flatten =
        (P.drop off).take ls.sum := by
  intro ls
  induction ls with
  | nil => intro off _; simp [splitChunks]
  | cons n ls ih =>
    intro off hsum
    have hlen : ((P.drop off).take n).length = n := by
      rw [List.length_take, List.length_drop]
      simp only [List.sum_cons] at hsum
      omega
    simp only [splitChunks, List.map_cons, List.sum_cons]
    rw [List.flatten_cons]
    rw [ih (off + n) (by simp only [List.sum_cons] at hsum; omega)]
    rw [List.take_add]
    congr 1
    rw [List.drop_drop]

theorem receiveAll_inv (P : List Nat) :
    ∀ (arr : List (IpHdr × List Nat)) (f : Frag) (S : List (Nat × List Nat)),
      rangesSorted f.data →
      slicesOf P f.data →
      sumLens f.data = sumLens S →
      (∀ n, covers f.data n ↔ covers S n) →
      (covers S 0 → 8 ≤ f.header.length) →
      (∀ hp ∈ arr, (fragView hp).2 =
          (P.drop (fragView hp).1).take (fragView hp).2.length ∧
        (fragView hp).2 ≠ [] ∧ 2 ≤ hp.1.ihl) →
      (arr.map fragView).Pairwise rangeDisj →
      (∀ x ∈ arr.map fragView, ∀ s ∈ S, rangeDisj x s) →
      rangesSorted (arr.foldl (fun f hp => f.receive hp.1 hp.2) f).data ∧
      slicesOf P (arr.foldl (fun f hp => f.receive hp.1 hp.2) f).data ∧
      sumLens (arr.foldl (fun f hp => f.receive hp.1 hp.2) f).data =
        sumLens (S ++ arr.map fragView) ∧
      (∀ n, covers (arr.foldl (fun f hp => f.receive hp.1 hp.2) f).data n ↔
        covers (S ++ arr.map fragView) n) ∧
      (covers (S ++ arr.map fragView) 0 →
        8 ≤ (arr.foldl (fun f hp => f.receive hp.1 hp.2) f).header.length) := by
  intro arr
  induction arr with
  | nil =>
    intro f S h1 h2 h3 h4 h5 _ _ _
    simpa using ⟨h1, h2, h3, h4, h5⟩
  | cons hp rest ih =>
    intro f S h1 h2 h3 h4 h5 harr hpw hdisjS
    rcases harr hp (by simp) with ⟨hx_slice, hx_ne, hx_ihl⟩
    have hpw' : List.Pairwise rangeDisj
        (fragView hp :: rest.map fragView) := by
      rw [List.map_cons] at hpw
      exact hpw
    rcases List.pairwise_cons.mp hpw' with ⟨hx_rest, hpw_rest⟩
    -- the view contributed by the head fragment
    set x : Nat × List Nat := fragView hp with hxdef
    -- the merged state
    have hdata : (f.receive hp.1 hp.2).data = mergeRange f.data x.1 x.2 := by
      simp only [Frag.receive, Frag.merge, hxdef, fragView]
      by_cases hmf : hp.1.mf = false <;> simp [hmf]
    have hheader : (f.receive hp.1 hp.2).header =
        (if hp.1.offset = 0 then hp.2.take (hp.1.ihl * 4) else f.header) := by
      simp only [Frag.receive, Frag.merge]
      by_cases hmf : hp.1.mf = false <;> simp [hmf]
    -- x is interval-disjoint from every range of f.data
    have hx_not_covS : ∀ n, x.1 ≤ n → n < x.1 + x.2.length → ¬ covers S n := by
      intro n hn1 hn2 hcov
      rcases hcov with ⟨s, hsmem, hs1, hs2⟩
      rcases hdisjS x (by simp [hxdef]) s hsmem with hd | hd <;> omega
    have hx_disj_data : ∀ r ∈ f.data, rangeDisj x r := by
      intro r hr
      refine rangeDisj_of_not_covered x r hx_ne (h2 r hr).2 ?_
      intro n hn1 hn2 hcr
      exact hx_not_covS n hn1 hn2 ((h4 n).mp ⟨r, hr, hcr⟩)
    rcases mergeRange_spec P f.data x.1 x.2 h1 h2 hx_slice hx_ne hx_disj_data
      with ⟨m1, m2, m3, m4⟩
    -- invariant for the merged state over S ++ [x]
    have h3' : sumLens (f.receive hp.1 hp.2).data = sumLens (S ++ [x]) := by
      rw [hdata, m3, sumLens_append, h3]
      simp [sumLens]
      omega
    have h4' : ∀ n, covers (f.receive hp.1 hp.2).data n ↔
        covers (S ++ [x]) n := by
      intro n
      rw [hdata, m4 n, covers_append, covers_cons, h4 n]
      constructor
      · rintro (h | h)
        · exact Or.inr (Or.inl h)
        · exact Or.inl h
      · rintro (h | h | h)
        · exact Or.inr h
        · exact Or.inl h
        · exact absurd h (by simp [covers])
    have h5' : covers (S ++ [x]) 0 → 8 ≤ (f.receive hp.1 hp.2).header.length := by
      intro hc
      rw [hheader]
      by_cases hoff : hp.1.offset = 0
      · rw [if_pos hoff]
        have hplen : hp.1.ihl * 4 < hp.2.length := by
          have := hx_ne
          simp only [hxdef, fragView] at this
          by_contra hcon
          push_neg at hcon
          exact this (by
            rw [List.drop_eq_nil_iff]
            exact hcon)
        rw [List.length_take]
        omega
      · rw [if_neg hoff]
        apply h5
        rcases (covers_append S [x] 0).mp hc with h | h
        · exact h
        · rcases h with ⟨r, hr, hr1, hr2⟩
          rcases List.mem_cons.mp hr with h | h
          · exfalso
            apply hoff
            have : r.1 = 0 := by omega
            rw [h] at this
            simpa [hxdef, fragView] using this
          · simp at h
    -- apply the induction hypothesis to the remaining fragments
    have := ih (f.receive hp.1 hp.2) (S ++ [x])
      (hdata ▸ m1) (hdata ▸ m2) h3' h4' h5'
      (fun q hq => harr q (by simp [hq]))
      hpw_rest
      (by
        intro y hy s hs
        rcases List.mem_append.mp hs with h | h
        · exact hdisjS y (by simp [hy]) s h
        · have hyx : rangeDisj x y := hx_rest y hy
          have : s = x := by simpa using h
          rw [this]
          exact rangeDisj_symm hyx)
    simp only [List.foldl_cons, List.map_cons]
    have happ : (S ++ [x]) ++ rest.map fragView = S ++ x :: rest.map fragView := by
      simp
    rw [happ] at this
    exact this

/-- C1: split-then-merge round trip.  Take any payload `P` split into
nonempty chunks of lengths `ls` (covering `P` exactly), delivered in any
arrival order as IPv4 fragments (each fragment is its own IP header, of at
least 8 bytes, followed by its chunk; its offset field addresses its
chunk).  If, after all fragments have been merged into the entry via
`ipv4::frag::merge`, the entry is complete in the sense of
`ipv4::frag::is_complete`, then the IP payload of the datagram assembled by
`ipv4::frag::get_assembled_packet` — the bytes past the Ethernet header and
the captured IP header — equals the concatenation in offset order of all
received fragment payloads, which is `P` itself. -/
theorem C1_reassembly_roundtrip (P : List Nat) (ls : List Nat)
    (arrival : List (IpHdr × List Nat)) (eth_src eth_dst : List Nat)
    (hpos : ∀ n ∈ ls, 0 < n)
    (hsum : ls.sum = P.length)
    (hperm : (arrival.map fragView).Perm (splitChunks P 0 ls))
    (hihl : ∀ hp ∈ arrival, 2 ≤ hp.1.ihl)
    (hsrc : eth_src.length = 6) (hdst : eth_dst.length = 6)
    (hcomp : (receiveAll arrival).is_complete = true) :
    ((receiveAll arrival).get_assembled_packet eth_src eth_dst).drop
        (14 + (receiveAll arrival).header.length) =
      ((splitChunks P 0 ls).map Prod.snd).flatten ∧
    ((splitChunks P 0 ls).map Prod.snd).flatten = P := by
  have hb : 0 + ls.sum ≤ P.length := by omega
  have hjoin : ((splitChunks P 0 ls).map Prod.snd).flatten = P := by
    rw [splitChunks_join P ls 0 hb, List.drop_zero, hsum, List.take_length]
  -- invariants of the final entry
  have hinv := receiveAll_inv P arrival {} []
    (by simp [rangesSorted]) (by intro r hr; simp at hr) (by simp)
    (by intro n; simp [covers]) (by intro hc; simp [covers] at hc)
    (by
      intro hp hhp
      have hmem : fragView hp ∈ splitChunks P 0 ls :=
        hperm.mem_iff.mp (List.mem_map.mpr ⟨hp, hhp, rfl⟩)
      have := splitChunks_mem P ls 0 hb hpos (fragView hp) hmem
      exact ⟨this.1, this.2.1, hihl hp hhp⟩)
    ((hperm.pairwise_iff (fun h => rangeDisj_symm h)).mpr
      (splitChunks_pairwise P ls 0 hb hpos))
    (by intro x _ s hs; simp at hs)
  simp only [List.nil_append] at hinv
  rcases hinv with ⟨_, hsl, hsum2, hcov, hhd⟩
  have hfold : arrival.foldl (fun f hp => f.receive hp.1 hp.2) {} =
      receiveAll arrival := rfl
  rw [hfold] at hsl hsum2 hcov hhd
  -- the completed entry holds a single range at offset 0
  rcases hd : (receiveAll arrival).data with _ | ⟨⟨o, c⟩, t⟩
  · rw [Frag.is_complete, hd] at hcomp
    simp at hcomp
  · rw [Frag.is_complete, hd] at hcomp
    simp only [Bool.and_eq_true, beq_iff_eq, List.length_cons] at hcomp
    have ht : t = [] := by
      have := hcomp.1.2
      rcases t with _ | _
      · rfl
      · simp at this
    have ho : o = 0 := hcomp.2
    subst ht
    subst ho
    -- the single range is P itself
    have hcmem : ((0 : Nat), c) ∈ (receiveAll arrival).data := by
      rw [hd]; simp
    have hcslice := hsl ((0 : Nat), c) hcmem
    have hclen : c.length = P.length := by
      have h1 : sumLens (receiveAll arrival).data = c.length := by
        rw [hd]; simp [sumLens]
      have h2 : sumLens (arrival.map fragView) =
          sumLens (splitChunks P 0 ls) := by
        simp only [sumLens]
        exact (hperm.map (fun r => r.2.length)).sum_eq
      rw [h1, h2, splitChunks_sum P ls 0 hb] at hsum2
      omega
    have hcP : c = P := by
      have := hcslice.1
      rw [hclen, List.drop_zero, List.take_length] at this
      exact this
    -- the header is at least 8 bytes, so the length/frag rewrites stay in it
    have hcov0 : covers (arrival.map fragView) 0 := by
      rw [← hcov 0, hd]
      refine ⟨((0 : Nat), c), by simp, le_rfl, ?_⟩
      have hlc : 0 < c.length := List.length_pos.mpr hcslice.2
      dsimp only []
      omega
    have hhl : 8 ≤ (receiveAll arrival).header.length := hhd hcov0
    -- compute the assembled packet's payload
    refine ⟨?_, hjoin⟩
    rw [hjoin, ← hcP]
    unfold Frag.get_assembled_packet
    rw [hd]
    simp only [set16]
    have hethlen : (ethHdrBytes eth_src eth_dst).length = 14 := by
      simp [ethHdrBytes, hsrc, hdst]
    rw [List.drop_set, if_pos (by omega), List.drop_set, if_pos (by omega),
        List.drop_set, if_pos (by omega), List.drop_set, if_pos (by omega)]
    rw [show 14 + (receiveAll arrival).header.length =
        (ethHdrBytes eth_src eth_dst).length +
          (receiveAll arrival).header.length from by omega]
    rw [List.append_assoc]
    rw [List.drop_append ((receiveAll arrival).header.length)]
    exact List.drop_left _ _

/-- C1 witness: the 16-byte payload `c1P` split into two 8-byte fragments,
delivered last-fragment-first, reassembles to `c1P` exactly. -/
theorem C1_reassembly_roundtrip_witness :
    ((receiveAll c1arrival).get_assembled_packet (List.replicate 6 0xAA)
        (List.replicate 6 0xBB)).drop
        (14 + (receiveAll c1arrival).header.length) =
      ((splitChunks c1P 0 [8, 8]).map Prod.snd).flatten ∧
    ((splitChunks c1P 0 [8, 8]).map Prod.snd).flatten = c1P :=
  C1_reassembly_roundtrip c1P [8, 8] c1arrival
    (List.replicate 6 0xAA) (List.replicate 6 0xBB)
    (by decide) (by decide) (by decide) (by decide) (by decide) (by decide)
    (by decide)

end Seastar
